import Mathlib

/-!
Verification development for the voice-runner repository
(src/voice_runner/runner.py, voice.py, cli.py).

The Python core is embedded shallowly:

* `normalize_phrase` models `runner.normalize_phrase`: strip, ASCII lower,
  `re.sub` of the whole words "the|a|an" and then "program|script|app"
  (each match replaced by a single space, `\b` modelled as a change of
  word-character status), collapse of whitespace runs and final strip.
  The character classes model Python's ASCII behaviour (`\w` = alnum or
  underscore, `\s` = the six ASCII whitespace characters), matching the
  printable-ASCII scope of the specification.
* `best_match` models `runner.best_match` over an insertion-ordered
  association list that plays the role of the Python dict (unique raw
  keys, last-write-wins for the normalized-key comprehension).
* `maybe_run_from_voice` models the parsing part of
  `voice._maybe_run_from_voice` (utterance without newline characters).
* `ensure_python_script`, `run_script_attached`, `handle_map`,
  `handle_unmap` and `load_config` model the supervisor and command layer
  over an abstract file system `String → PathStat`, an oracle describing
  the child process's behaviour, and an abstract JSON parser; path
  canonicalisation (`expanduser`/`resolve`) is modelled as the identity.
-/

namespace VoiceRunner

/-! ### Character primitives (ASCII models of Python's `str` and `re` classes) -/

/-- The six ASCII characters matched by Python's `\s`
(space, TAB, LF, VT, FF, CR). -/
def isSpaceChar (c : Char) : Bool :=
  c == Char.ofNat 32 || c == Char.ofNat 9 || c == Char.ofNat 10 ||
    c == Char.ofNat 11 || c == Char.ofNat 12 || c == Char.ofNat 13

/-- Python's `\w` on ASCII input: letters, digits, underscore. -/
def isWordChar (c : Char) : Bool := c.isAlphanum || c == Char.ofNat 95

/-- ASCII `str.lower`: map `A`..`Z` (65..90) to `a`..`z` (97..122). -/
def lowerChar (c : Char) : Char :=
  if 65 ≤ c.toNat ∧ c.toNat ≤ 90 then Char.ofNat (c.toNat + 32) else c

def lowerStr (s : String) : String := String.mk (s.toList.map lowerChar)

/-! ### `re.sub(r"\b(w1|w2|...)\b", " ", s)` as a left-to-right scanner

A word of the pattern is a nonempty character list.  A match at a position
requires that the previous character is not a word character (the leading
`\b`; all pattern words start with a letter), that the word is a literal
prefix there, and that the character after the match is not a word
character (the trailing `\b`).  Alternatives are tried in pattern order,
which models the regex engine's backtracking for `(the|a|an)`.  Each match
is replaced by one space and scanning resumes after it.  The recursion is
driven by a fuel argument; `subAll` supplies fuel `cs.length`, which is
always sufficient (each step consumes at least one character). -/

abbrev RWord := { w : List Char // w ≠ [] }

def boundaryOk : List Char → Bool
  | [] => true
  | c :: _ => !isWordChar c

def tryMatch (w : List Char) (cs : List Char) : Option (List Char) :=
  if w.isPrefixOf cs then
    if boundaryOk (cs.drop w.length) then some (cs.drop w.length) else none
  else none

def tryWords (ws : List RWord) (cs : List Char) : Option (List Char) :=
  ws.findSome? fun w => tryMatch w.val cs

def subWF (ws : List RWord) : Nat → List Char → Bool → List Char
  | 0, cs, _ => cs
  | _ + 1, [], _ => []
  | n + 1, c :: cs, prevW =>
    if prevW then c :: subWF ws n cs (isWordChar c)
    else
      match tryWords ws (c :: cs) with
      | some rest => Char.ofNat 32 :: subWF ws n rest true
      | none => c :: subWF ws n cs (isWordChar c)

def subAll (ws : List RWord) (cs : List Char) : List Char := subWF ws cs.length cs false

/-- `noMatches ws cs b = true` iff the scanner finds no match anywhere in
`cs` when the character preceding `cs` has word-character status `b`. -/
def noMatches (ws : List RWord) : List Char → Bool → Bool
  | [], _ => true
  | c :: cs, prevW =>
    (prevW || (tryWords ws (c :: cs)).isNone) && noMatches ws cs (isWordChar c)

def articleWords : List RWord :=
  [⟨"the".toList, by decide⟩, ⟨"a".toList, by decide⟩, ⟨"an".toList, by decide⟩]

def fillerWords : List RWord :=
  [⟨"program".toList, by decide⟩, ⟨"script".toList, by decide⟩, ⟨"app".toList, by decide⟩]

/-! ### `re.sub(r"\s+", " ", s)` and `str.strip()` -/

/-- Replace every maximal run of whitespace by a single space
(`inRun` records whether we are inside a run whose space was already emitted). -/
def squeezeGo : List Char → Bool → List Char
  | [], _ => []
  | c :: cs, inRun =>
    if isSpaceChar c then
      if inRun then squeezeGo cs true else Char.ofNat 32 :: squeezeGo cs true
    else c :: squeezeGo cs false

/-- No two adjacent whitespace characters (the shape of `squeezeGo` output). -/
def goodSpaces : List Char → Bool
  | [] => true
  | [_] => true
  | c :: d :: rest => !(isSpaceChar c && isSpaceChar d) && goodSpaces (d :: rest)

def trimL (l : List Char) : List Char := l.dropWhile isSpaceChar

def trimR (l : List Char) : List Char := (l.reverse.dropWhile isSpaceChar).reverse

def trimBoth (l : List Char) : List Char := trimR (trimL l)

def strTrim (s : String) : String := String.mk (trimBoth s.toList)

/-! ### `runner.normalize_phrase` -/

def normalizeList (l : List Char) : List Char :=
  let t := (trimBoth l).map lowerChar
  let s1 := subAll articleWords t
  let s2 := subAll fillerWords s1
  trimBoth (squeezeGo s2 false)

def normalize_phrase (s : String) : String := String.mk (normalizeList s.toList)

/-- The six words removed by `normalize_phrase` (both substitution passes). -/
def removableWords : List String := ["the", "a", "an", "program", "script", "app"]

/-! ### The alias table: Python `dict` as an insertion-ordered association list -/

abbrev Table := List (String × String)

/-- Python `d[k]` / `d.get(k)`: the keys of a dict are unique, so the first
hit is the only hit. -/
def dictGet : Table → String → Option String
  | [], _ => none
  | (k, v) :: rest, key => if k = key then some v else dictGet rest key

/-- Python `d[k] = v`: overwrite in place if the key exists, else append. -/
def dictSet : Table → String → String → Table
  | [], k, v => [(k, v)]
  | (k', v') :: rest, k, v =>
    if k' = k then (k', v) :: rest else (k', v') :: dictSet rest k v

/-- Python `del d[k]` (keys unique, so removing the first hit is `del`). -/
def dictErase : Table → String → Table
  | [], _ => []
  | (k, v) :: rest, key => if k = key then rest else (k, v) :: dictErase rest key

/-! ### `runner.best_match` -/

/-- `{normalize_phrase(k): k for k in aliases.keys()}`: a dict comprehension
in insertion order, so a later key with the same normalized form overwrites
the value stored for that normalized form. -/
def normMap (t : Table) : Table :=
  t.foldl (fun m kv => dictSet m (normalize_phrase kv.1) kv.1) []

/-- Python `"...".split()`: maximal whitespace-free chunks. -/
def splitWsGo : List Char → List Char → List (List Char)
  | [], acc => if acc.isEmpty then [] else [acc.reverse]
  | c :: cs, acc =>
    if isSpaceChar c then
      if acc.isEmpty then splitWsGo cs [] else acc.reverse :: splitWsGo cs []
    else splitWsGo cs (c :: acc)

def tokenList (s : String) : List String := (splitWsGo s.toList []).map String.mk

/-- `len(set(norm_raw.split()) & set(norm_k.split()))` for key `k`, with the
raw side already tokenised into `toks`. -/
def keyOverlap (toks : List String) (k : String) : Nat :=
  (((tokenList (normalize_phrase k)).dedup).filter fun tk => tk ∈ toks).length

/-- Python `a in b` on strings: contiguous substring (true for the empty `a`). -/
def strInStr (a b : String) : Bool :=
  (List.range (b.toList.length + 1)).any fun i => a.toList.isPrefixOf (b.toList.drop i)

/-- The tier-3 test of `best_match`:
`normalize_phrase(k) in norm_raw or norm_raw in normalize_phrase(k)`. -/
def substrTest (nraw : String) (k : String) : Bool :=
  strInStr (normalize_phrase k) nraw || strInStr nraw (normalize_phrase k)

/-- One candidate of the token-overlap tier: `((overlap, len(norm_k)), k)`. -/
abbrev Cand := (Nat × Nat) × String

/-- `x` sorts strictly before `y` under
`candidates.sort(key=lambda t: (t[0], -t[1]), reverse=True)`. -/
def candBetter (x y : Cand) : Bool :=
  y.1.1 < x.1.1 || (x.1.1 == y.1.1 && x.1.2 < y.1.2)

/-- `candidates.sort(key=..., reverse=True)` is stable, so
`candidates[0]` is the earliest candidate that no other candidate beats
strictly; this fold computes exactly that element. -/
def pickBest (c : Cand) (cs : List Cand) : Cand :=
  cs.foldl (fun acc x => if candBetter x acc then x else acc) c

/-- The candidate list of the token-overlap tier, in insertion order. -/
def tier2cands (aliases : Table) (toks : List String) : List Cand :=
  aliases.filterMap fun kv =>
    let ov := keyOverlap toks kv.1
    if 0 < ov then some (((ov, (normalize_phrase kv.1).length), kv.1) : Cand) else none

/-- Tiers 2 and 3 of `best_match` (token-overlap ranking, then the
substring fallback in insertion order). -/
def bmTier23 (aliases : Table) (nraw : String) : Option (String × String) :=
  match tier2cands aliases (tokenList nraw) with
  | c :: cs => some ((pickBest c cs).2, (dictGet aliases (pickBest c cs).2).getD "")
  | [] =>
    match aliases.find? (fun kv => substrTest nraw kv.1) with
    | some kv => some (kv.1, (dictGet aliases kv.1).getD "")
    | none => none

def best_match (aliases : Table) (raw : String) : Option (String × String) :=
  match aliases with
  | [] => none
  | kv :: rest =>
    match dictGet (normMap (kv :: rest)) (normalize_phrase raw) with
    | some key => some (key, (dictGet (kv :: rest) key).getD "")
    | none => bmTier23 (kv :: rest) (normalize_phrase raw)

/-- The last key of `t` (in insertion order) whose normalized form is `n`:
the value stored under `n` by the dict comprehension of `normMap`. -/
def lastNormKey (t : Table) (n : String) : Option String :=
  t.foldl (fun acc kv => if normalize_phrase kv.1 = n then some kv.1 else acc) none

/-! ### `voice._maybe_run_from_voice` (parsing part)

`re.search(r"\brun\s+(.+)$", text)` followed by the background-suffix
handling.  `findRunRest` returns the suffix after the first occurrence of
"run" preceded by a non-word character (or the start) and followed by at
least one whitespace character and at least one further character; on
newline-free text this is exactly where the regex matches, and
`group(1).strip()` equals that suffix stripped of surrounding whitespace. -/

def voiceTailOk : List Char → Bool
  | [] => false
  | d :: ds => isSpaceChar d && !ds.isEmpty

def findRunRest : List Char → Bool → Option (List Char)
  | [], _ => none
  | c :: cs, prevW =>
    if !prevW && "run".toList.isPrefixOf (c :: cs) && voiceTailOk ((c :: cs).drop 3) then
      some ((c :: cs).drop 3)
    else findRunRest cs (isWordChar c)

def endsWithStr (suf s : String) : Bool := suf.toList.isSuffixOf s.toList

/-- `re.sub(r"(and|ampersand|background)$", "", s)`: the leftmost match of
the anchored alternation is the longest of the three suffixes present. -/
def stripBgSuffix (s : String) : String :=
  if endsWithStr "background" s then String.mk (s.toList.take (s.toList.length - 10))
  else if endsWithStr "ampersand" s then String.mk (s.toList.take (s.toList.length - 9))
  else if endsWithStr "and" s then String.mk (s.toList.take (s.toList.length - 3))
  else s

/-- The phrase/background-flag extraction of `_maybe_run_from_voice`:
`none` when the function returns without running anything, otherwise the
pair (phrase forwarded to `handle_run`, detached-mode flag). -/
def maybe_run_from_voice (text : String) : Option (String × Bool) :=
  if text = "" then none
  else
    match findRunRest text.toList false with
    | none => none
    | some rest =>
      let phrase_raw := strTrim (String.mk rest)
      let bg := endsWithStr "and" phrase_raw || endsWithStr "ampersand" phrase_raw ||
        endsWithStr "background" phrase_raw
      let phrase := if bg then strTrim (stripBgSuffix phrase_raw) else phrase_raw
      some (phrase, bg)

/-! ### Supervisor and command layer models -/

inductive PathStat where
  | missing
  | directory
  | regular
  deriving DecidableEq

/-- `runner.ensure_python_script` over an abstract file system
(`expanduser`/`resolve` modelled as the identity; the `.suffix.lower()`
test modelled as a case-insensitive `.py` suffix test on the path).
Returns the validated path together with the warnings it printed, or the
exception message. -/
def ensure_python_script (fs : String → PathStat) (path : String) :
    Except String (String × List String) :=
  match fs path with
  | PathStat.missing => Except.error ("Script not found: " ++ path)
  | PathStat.directory => Except.error ("Expected a file, got directory: " ++ path)
  | PathStat.regular =>
    if endsWithStr ".py" (lowerStr path) then Except.ok (path, [])
    else Except.ok (path, ["does not end with .py; attempting to run with Python anyway"])

inductive RunEvent where
  | spawned
  | sigintSent
  | killed
  | reaped
  deriving DecidableEq

/-- The behaviour of the attached child, as seen through `Popen`:
whether `proc.wait()` is interrupted by a `KeyboardInterrupt`, the exit
code of an uninterrupted run, the time after SIGINT (if any) at which the
child exits with which code, and the code `proc.wait()` reports after
`proc.kill()`. -/
structure AttachedOracle where
  interrupted : Bool
  normalExit : Int
  sigintExitTime : Option (Nat × Int)
  killWaitCode : Int
  deriving DecidableEq

/-- The bounded grace period of `proc.wait(timeout=5)`. -/
def graceTimeout : Nat := 5

/-- The attached branch of `runner.run_script`: spawn, wait; on
`KeyboardInterrupt` send SIGINT, wait up to `graceTimeout`, and on timeout
kill and reap.  The file system argument reflects the information
available at launch; the function never consults it, because `run_script`
performs no validation (`Popen` is called directly on the path). -/
def run_script_attached (fs : String → PathStat) (path : String) (o : AttachedOracle) :
    List RunEvent × Int :=
  let _ := fs
  let _ := path
  if o.interrupted then
    match o.sigintExitTime with
    | some (t, code) =>
      if t ≤ graceTimeout then ([RunEvent.spawned, RunEvent.sigintSent, RunEvent.reaped], code)
      else ([RunEvent.spawned, RunEvent.sigintSent, RunEvent.killed, RunEvent.reaped],
        o.killWaitCode)
    | none =>
      ([RunEvent.spawned, RunEvent.sigintSent, RunEvent.killed, RunEvent.reaped], o.killWaitCode)
  else ([RunEvent.spawned, RunEvent.reaped], o.normalExit)

/-- Result of a table-mutating command: the table afterwards, whether
`save_config` ran, and the error/warning lines printed. -/
structure CmdResult where
  table : Table
  saved : Bool
  msgs : List String
  deriving DecidableEq

/-- `runner.handle_map` for explicit arguments (`map "<phrase>" <path>`).
The zero-argument interactive path reads stdin and is modelled by
`interactive_map` below. -/
def handle_map (fs : String → PathStat) (args : List String) (t : Table) : CmdResult :=
  match args with
  | [] => ⟨t, false, ["interactive"]⟩
  | [_] => ⟨t, false, ["Usage: map <phrase> <path>"]⟩
  | phrase :: path :: _ =>
    match ensure_python_script fs path with
    | Except.error e => ⟨t, false, [e]⟩
    | Except.ok (real, warns) => ⟨dictSet t phrase real, true, warns⟩

/-- `runner.interactive_map` with the two prompted inputs as arguments. -/
def interactive_map (fs : String → PathStat) (phrase path : String) (t : Table) : CmdResult :=
  if phrase = "" ∨ path = "" then ⟨t, false, ["Phrase and path are required."]⟩
  else
    match ensure_python_script fs path with
    | Except.error e => ⟨t, false, [e]⟩
    | Except.ok (real, warns) => ⟨dictSet t phrase real, true, warns⟩

/-- `runner.handle_unmap`. -/
def handle_unmap (args : List String) (t : Table) : CmdResult :=
  match args with
  | [] => ⟨t, false, ["Usage: unmap <phrase>"]⟩
  | phrase :: _ =>
    match dictGet t phrase with
    | some _ => ⟨dictErase t phrase, true, ["Removed mapping"]⟩
    | none =>
      match best_match t phrase with
      | some (key, _) => ⟨dictErase t key, true, ["Removed mapping"]⟩
      | none => ⟨t, false, ["No mapping found for " ++ phrase]⟩

/-- `runner.load_config` over an abstract store (`none` = config file does
not exist) and an abstract JSON parser (`none` = `json.loads`, or the
dict coercion of its result, raises).  Returns the in-memory table, the
warning flag, and the store content after the call. -/
def load_config (parse : String → Option Table) (store : Option String) :
    Table × Bool × Option String :=
  match store with
  | none => ([], false, none)
  | some content =>
    match parse content with
    | some data => (data, false, some content)
    | none => ([], true, some content)

/-! ## Theorems -/

/-- Claim C8: loading a persisted alias store whose content fails to parse
returns the empty table, surfaces a warning, and leaves the store content
unmodified; a missing store file yields the empty table (and no warning). -/
theorem c8_load_failures_nonfatal :
    (∀ (parse : String → Option Table) (content : String), parse content = none →
      load_config parse (some content) = ([], true, some content)) ∧
    ∀ parse : String → Option Table, load_config parse none = ([], false, none) := by
  constructor
  · intro parse content h
    simp [load_config, h]
  · intro parse
    rfl

/-- Witness for C8 at a concrete failing parser and store content. -/
theorem c8_witness :
    load_config (fun _ => (none : Option Table)) (some "garbage") = ([], true, some "garbage") :=
  c8_load_failures_nonfatal.1 _ "garbage" rfl

/-- Claim C7: a `map` registration whose path fails validation (missing
path or directory) leaves the table exactly unchanged and saves nothing,
and an `unmap` of a phrase with no exact key and no fuzzy candidate prints
a warning and leaves the table exactly unchanged (nothing saved). -/
theorem c7_mutations_atomic_on_failure :
    (∀ (fs : String → PathStat) (t : Table) (phrase path : String),
      fs path = PathStat.missing ∨ fs path = PathStat.directory →
      (handle_map fs [phrase, path] t).table = t ∧
        (handle_map fs [phrase, path] t).saved = false) ∧
    ∀ (t : Table) (phrase : String),
      dictGet t phrase = none → best_match t phrase = none →
      handle_unmap [phrase] t = ⟨t, false, ["No mapping found for " ++ phrase]⟩ := by
  constructor
  · intro fs t phrase path h
    rcases h with h | h <;> simp [handle_map, ensure_python_script, h]
  · intro t phrase h1 h2
    simp [handle_unmap, h1, h2]

/-- Witness for C7: a missing path aborts a `map` with the table untouched,
and `unmap` of an unmatched phrase warns and leaves the table untouched. -/
theorem c7_witness :
    ((handle_map (fun _ => PathStat.missing) ["hello", "/nowhere.py"]
        [("hello", "/h.py")]).table = [("hello", "/h.py")] ∧
      (handle_map (fun _ => PathStat.missing) ["hello", "/nowhere.py"]
        [("hello", "/h.py")]).saved = false) ∧
    handle_unmap ["zzz"] [("hello", "/h.py")] =
      ⟨[("hello", "/h.py")], false, ["No mapping found for zzz"]⟩ :=
  ⟨c7_mutations_atomic_on_failure.1 _ _ "hello" _ (Or.inl rfl),
    c7_mutations_atomic_on_failure.2 _ "zzz" (by decide) (by decide)⟩

/-- Claim C5: an attached launch that receives an external interrupt while
waiting forwards SIGINT to the child; if the child exits within the
5-unit grace period its code is returned, otherwise the child is killed
and reaped; in every case the launch resolves with some code and the
child is reaped. -/
theorem c5_interrupt_bounded (fs : String → PathStat) (path : String)
    (o : AttachedOracle) (h : o.interrupted = true) :
    RunEvent.sigintSent ∈ (run_script_attached fs path o).1 ∧
    RunEvent.reaped ∈ (run_script_attached fs path o).1 ∧
    (∀ t c, o.sigintExitTime = some (t, c) → t ≤ graceTimeout →
      (run_script_attached fs path o).2 = c) ∧
    ((o.sigintExitTime = none ∨
        ∃ t c, o.sigintExitTime = some (t, c) ∧ graceTimeout < t) →
      RunEvent.killed ∈ (run_script_attached fs path o).1 ∧
      (run_script_attached fs path o).2 = o.killWaitCode) := by
  rcases o with ⟨i, ne, se, kw⟩
  rcases se with _ | ⟨t, c⟩
  · subst h
    refine ⟨by simp [run_script_attached], by simp [run_script_attached], ?_, ?_⟩
    · intro t c hsome
      exact absurd hsome (by simp)
    · intro _
      simp [run_script_attached]
  · subst h
    by_cases ht : t ≤ graceTimeout
    · refine ⟨by simp [run_script_attached, ht], by simp [run_script_attached, ht], ?_, ?_⟩
      · intro t' c' hsome _
        simp only [Option.some.injEq, Prod.mk.injEq] at hsome
        rcases hsome with ⟨rfl, rfl⟩
        simp [run_script_attached, ht]
      · rintro (hnone | ⟨t', c', hsome, hlate⟩)
        · exact absurd hnone (by simp)
        · simp only [Option.some.injEq, Prod.mk.injEq] at hsome
          omega
    · refine ⟨by simp [run_script_attached, ht], by simp [run_script_attached, ht], ?_, ?_⟩
      · intro t' c' hsome hle
        simp only [Option.some.injEq, Prod.mk.injEq] at hsome
        omega
      · intro _
        simp [run_script_attached, ht]

/-- Witness for C5: an interrupted launch whose child ignores SIGINT past
the grace period is killed, reaped, and still yields a code. -/
theorem c5_witness :
    RunEvent.sigintSent ∈ (run_script_attached (fun _ => PathStat.regular) "/s.py"
      ⟨true, 0, some (7, 0), (-9)⟩).1 ∧
    RunEvent.reaped ∈ (run_script_attached (fun _ => PathStat.regular) "/s.py"
      ⟨true, 0, some (7, 0), (-9)⟩).1 ∧
    RunEvent.killed ∈ (run_script_attached (fun _ => PathStat.regular) "/s.py"
      ⟨true, 0, some (7, 0), (-9)⟩).1 ∧
    (run_script_attached (fun _ => PathStat.regular) "/s.py"
      ⟨true, 0, some (7, 0), (-9)⟩).2 = -9 := by
  have h := c5_interrupt_bounded (fun _ => PathStat.regular) "/s.py"
    ⟨true, 0, some (7, 0), (-9)⟩ rfl
  exact ⟨h.1, h.2.1, (h.2.2.2 (Or.inr ⟨7, 0, rfl, by decide⟩)).1,
    (h.2.2.2 (Or.inr ⟨7, 0, rfl, by decide⟩)).2⟩

/-- Counterexample to claim C3 as stated: the launch path checks no
precondition at all — with every path missing from the file system,
`run_script` still spawns the child and resolves, while the
existence check lives in `ensure_python_script` (registration time). -/
theorem c3_counterexample :
    RunEvent.spawned ∈ (run_script_attached (fun _ => PathStat.missing) "/missing.py"
      ⟨false, 0, none, 0⟩).1 ∧
    ensure_python_script (fun _ => PathStat.missing) "/missing.py" =
      Except.error "Script not found: /missing.py" := by
  constructor
  · simp [run_script_attached]
  · rfl

/-- Amended claim C3: `run_script` performs no existence/file/extension
checks at launch (its behaviour is independent of the file-system state of
the path), and that validation happens only at registration time inside
`ensure_python_script`: a missing path or a directory aborts with an
error, and a regular file whose extension is not `.py` proceeds with a
warning while a `.py` file proceeds silently. -/
theorem c3_amended_validation_at_registration :
    (∀ (fs fs' : String → PathStat) (path : String) (o : AttachedOracle),
      run_script_attached fs path o = run_script_attached fs' path o) ∧
    (∀ (fs : String → PathStat) (path : String), fs path = PathStat.missing →
      ensure_python_script fs path = Except.error ("Script not found: " ++ path)) ∧
    (∀ (fs : String → PathStat) (path : String), fs path = PathStat.directory →
      ensure_python_script fs path =
        Except.error ("Expected a file, got directory: " ++ path)) ∧
    (∀ (fs : String → PathStat) (path : String), fs path = PathStat.regular →
      endsWithStr ".py" (lowerStr path) = false →
      ensure_python_script fs path =
        Except.ok (path, ["does not end with .py; attempting to run with Python anyway"])) ∧
    ∀ (fs : String → PathStat) (path : String), fs path = PathStat.regular →
      endsWithStr ".py" (lowerStr path) = true →
      ensure_python_script fs path = Except.ok (path, []) := by
  refine ⟨fun fs fs' path o => rfl, ?_, ?_, ?_, ?_⟩
  · intro fs path h
    simp [ensure_python_script, h]
  · intro fs path h
    simp [ensure_python_script, h]
  · intro fs path h hext
    simp [ensure_python_script, h, hext]
  · intro fs path h hext
    simp [ensure_python_script, h, hext]

/-- Witness for the amended C3 at concrete file systems and paths. -/
theorem c3_amended_witness :
    ensure_python_script (fun _ => PathStat.missing) "/a.py" =
      Except.error "Script not found: /a.py" ∧
    ensure_python_script (fun _ => PathStat.directory) "/d" =
      Except.error "Expected a file, got directory: /d" ∧
    ensure_python_script (fun _ => PathStat.regular) "/a.sh" =
      Except.ok ("/a.sh", ["does not end with .py; attempting to run with Python anyway"]) ∧
    ensure_python_script (fun _ => PathStat.regular) "/a.PY" = Except.ok ("/a.PY", []) :=
  ⟨c3_amended_validation_at_registration.2.1 _ "/a.py" rfl,
    c3_amended_validation_at_registration.2.2.1 _ "/d" rfl,
    c3_amended_validation_at_registration.2.2.2.1 _ "/a.sh" rfl (by decide),
    c3_amended_validation_at_registration.2.2.2.2 _ "/a.PY" rfl (by decide)⟩

/-! ### Association-list and matcher lemmas -/

theorem dictGet_dictSet (m : Table) (k v key) :
    dictGet (dictSet m k v) key = if k = key then some v else dictGet m key := by
  induction m with
  | nil =>
    by_cases h : k = key <;> simp [dictSet, dictGet, h]
  | cons kv rest ih =>
    obtain ⟨k', v'⟩ := kv
    by_cases h1 : k' = k
    · subst h1
      by_cases h2 : k' = key <;> simp [dictSet, dictGet, h2]
    · by_cases h2 : k' = key
      · subst h2
        simp [dictSet, dictGet, h1, Ne.symm h1]
      · simp [dictSet, dictGet, h1, h2, ih]

theorem foldl_lastPick (l : Table) (a : Option String) (n : String) :
    l.foldl (fun acc kv => if normalize_phrase kv.1 = n then some kv.1 else acc) a =
      (l.foldl (fun acc kv => if normalize_phrase kv.1 = n then some kv.1 else acc)
        none).elim a some := by
  induction l generalizing a with
  | nil => rfl
  | cons kv rest ih =>
    simp only [List.foldl_cons]
    by_cases h : normalize_phrase kv.1 = n
    · rw [if_pos h, if_pos h, ih (some kv.1)]
      rcases hF : rest.foldl
          (fun acc kv => if normalize_phrase kv.1 = n then some kv.1 else acc) none
        with _ | x <;> rw [hF] <;> rfl
    · rw [if_neg h, if_neg h, ih a]

theorem lastNormKey_cons (kv : String × String) (rest : Table) (n : String) :
    lastNormKey (kv :: rest) n =
      (lastNormKey rest n).elim
        (if normalize_phrase kv.1 = n then some kv.1 else none) some := by
  simp only [lastNormKey, List.foldl_cons]
  exact foldl_lastPick rest _ n

theorem dictGet_normMap_aux (t : Table) (m : Table) (n : String) :
    dictGet (t.foldl (fun m kv => dictSet m (normalize_phrase kv.1) kv.1) m) n =
      (lastNormKey t n).elim (dictGet m n) some := by
  induction t generalizing m with
  | nil => rfl
  | cons kv rest ih =>
    simp only [List.foldl_cons]
    rw [ih, lastNormKey_cons, dictGet_dictSet]
    rcases lastNormKey rest n with _ | x
    · by_cases h : normalize_phrase kv.1 = n <;> simp [h]
    · rfl

theorem dictGet_normMap (t : Table) (n : String) :
    dictGet (normMap t) n = lastNormKey t n := by
  rw [normMap, dictGet_normMap_aux]
  rcases lastNormKey t n with _ | x <;> rfl

theorem lastNormKey_eq_none_iff (t : Table) (n : String) :
    lastNormKey t n = none ↔ ∀ kv ∈ t, normalize_phrase kv.1 ≠ n := by
  induction t with
  | nil => simp [lastNormKey]
  | cons kv rest ih =>
    rw [lastNormKey_cons]
    rcases h : lastNormKey rest n with _ | x
    · simp only [h, Option.elim_none]
      constructor
      · intro hif kv' hmem
        rcases List.mem_cons.mp hmem with heq | hmemr
        · intro hP
          rw [heq] at hP
          rw [if_pos hP] at hif
          exact Option.noConfusion hif
        · exact (ih.mp h) kv' hmemr
      · intro hall
        rw [if_neg (hall kv (List.mem_cons_self kv rest))]
    · simp only [h, Option.elim_some]
      constructor
      · intro hsome
        exact Option.noConfusion hsome
      · intro hall
        exact absurd (ih.mpr fun kv' hm => hall kv' (List.mem_cons_of_mem _ hm))
          (by simp [h])

theorem lastNormKey_self (t : Table) (P : String) (hmem : P ∈ t.map Prod.fst)
    (hu : ∀ kv ∈ t, kv.1 ≠ P → normalize_phrase kv.1 ≠ normalize_phrase P) :
    lastNormKey t (normalize_phrase P) = some P := by
  induction t with
  | nil => simp at hmem
  | cons kv rest ih =>
    rw [lastNormKey_cons]
    by_cases hrestmem : P ∈ rest.map Prod.fst
    · rw [ih hrestmem fun kv' h' => hu kv' (List.mem_cons_of_mem _ h')]
      rfl
    · have hkv : kv.1 = P := by
        rcases List.mem_map.mp hmem with ⟨kv', hkv', rfl⟩
        rcases List.mem_cons.mp hkv' with h | h
        · rw [h]
        · exact absurd (List.mem_map_of_mem Prod.fst h) hrestmem
      have hrest : lastNormKey rest (normalize_phrase P) = none := by
        rw [lastNormKey_eq_none_iff]
        intro kv' h'
        refine hu kv' (List.mem_cons_of_mem _ h') ?_
        intro hEq
        exact hrestmem (hEq ▸ List.mem_map_of_mem Prod.fst h')
      rw [hrest, Option.elim_none, if_pos (by rw [hkv]), hkv]

theorem dictGet_of_mem (t : Table) (P : String) (hmem : P ∈ t.map Prod.fst) :
    ∃ v, dictGet t P = some v := by
  induction t with
  | nil => simp at hmem
  | cons kv rest ih =>
    by_cases h : kv.1 = P
    · exact ⟨kv.2, by simp [dictGet, h]⟩
    · rcases List.mem_map.mp hmem with ⟨kv', hkv', rfl⟩
      rcases List.mem_cons.mp hkv' with hh | hh
      · exact absurd (congrArg Prod.fst hh).symm h
      · rcases ih (List.mem_map_of_mem Prod.fst hh) with ⟨v, hv⟩
        exact ⟨v, by simp [dictGet, h, hv]⟩

theorem dictGet_append_nodup (pre post : Table) (k0 v0 : String)
    (hnd : ((pre ++ (k0, v0) :: post).map Prod.fst).Nodup) :
    dictGet (pre ++ (k0, v0) :: post) k0 = some v0 := by
  induction pre with
  | nil => simp [dictGet]
  | cons kv rest ih =>
    have hne : kv.1 ≠ k0 := by
      simp only [List.cons_append, List.map_cons, List.nodup_cons] at hnd
      intro hEq
      exact hnd.1 (hEq ▸ (by simp : k0 ∈ ((rest ++ (k0, v0) :: post).map Prod.fst)))
    have hnd' : ((rest ++ (k0, v0) :: post).map Prod.fst).Nodup := by
      simp only [List.cons_append, List.map_cons, List.nodup_cons] at hnd
      exact hnd.2
    simp [dictGet, hne, ih hnd']

theorem candBetter_irrefl (x : Cand) : candBetter x x = false := by
  simp [candBetter]

theorem candBetter_trans (x y z : Cand) (h1 : candBetter x y = true)
    (h2 : candBetter y z = true) : candBetter x z = true := by
  simp only [candBetter, Bool.or_eq_true, Bool.and_eq_true, decide_eq_true_eq,
    beq_iff_eq] at *
  omega

theorem candBetter_flow (x c pb : Cand) (h1 : candBetter x c = false)
    (h2 : candBetter x pb = true) : candBetter c pb = true := by
  simp only [candBetter, Bool.or_eq_false_iff, Bool.or_eq_true, Bool.and_eq_false_iff,
    Bool.and_eq_true, decide_eq_false_iff_not, decide_eq_true_eq, beq_iff_eq,
    beq_eq_false_iff_ne, ne_eq] at *
  omega

theorem candBetter_false_elim (ov1 len1 ov2 len2 : Nat) (k1 k2 : String)
    (h : candBetter ((ov1, len1), k1) ((ov2, len2), k2) = false) :
    ov1 ≤ ov2 ∧ (ov1 = ov2 → len2 ≤ len1) := by
  simp only [candBetter, Bool.or_eq_false_iff, Bool.and_eq_false_iff,
    decide_eq_false_iff_not, beq_eq_false_iff_ne, ne_eq, not_lt] at h
  omega

theorem pickBest_cons (c x : Cand) (xs : List Cand) :
    pickBest c (x :: xs) = pickBest (if candBetter x c then x else c) xs := rfl

theorem pickBest_mem (c : Cand) (cs : List Cand) : pickBest c cs ∈ c :: cs := by
  induction cs generalizing c with
  | nil => simp [pickBest]
  | cons x xs ih =>
    rw [pickBest_cons]
    by_cases h : candBetter x c = true
    · rw [if_pos h]
      rcases List.mem_cons.mp (ih x) with hh | hh
      · rw [hh]
        simp
      · exact List.mem_cons_of_mem _ (List.mem_cons_of_mem _ hh)
    · rw [if_neg h]
      rcases List.mem_cons.mp (ih c) with hh | hh
      · rw [hh]
        simp
      · exact List.mem_cons_of_mem _ (List.mem_cons_of_mem _ hh)

theorem pickBest_not_better (c : Cand) (cs : List Cand) :
    ∀ x ∈ c :: cs, candBetter x (pickBest c cs) = false := by
  induction cs generalizing c with
  | nil =>
    intro x hx
    rcases List.mem_cons.mp hx with heq | hh
    · rw [heq]
      simp [pickBest, candBetter_irrefl]
    · simp at hh
  | cons y ys ih =>
    intro x hx
    rw [pickBest_cons]
    by_cases hy : candBetter y c = true
    · rw [if_pos hy]
      rcases List.mem_cons.mp hx with heq | hh
      · by_contra hcon
        rw [Bool.not_eq_false] at hcon
        have hyx : candBetter y x = true := by
          rw [heq]
          exact hy
        exact absurd (candBetter_trans y x (pickBest y ys) hyx hcon)
          (by simp [ih y y (List.mem_cons_self y ys)])
      · exact ih y x hh
    · rw [if_neg hy]
      rcases List.mem_cons.mp hx with heq | hh
      · rw [heq]
        exact ih c c (List.mem_cons_self c ys)
      · rcases List.mem_cons.mp hh with heq | hhh
        · rw [heq]
          by_contra hcon
          rw [Bool.not_eq_false] at hcon
          exact absurd (candBetter_flow y c (pickBest c ys) (by simpa using hy) hcon)
            (by simp [ih c c (List.mem_cons_self c ys)])
        · exact ih c x (List.mem_cons_of_mem c hhh)

/-- Tier 1 of `best_match`: an exact normalized hit returns the stored key. -/
theorem best_match_cons_tier1 (kv : String × String) (rest : Table) (raw key : String)
    (h : dictGet (normMap (kv :: rest)) (normalize_phrase raw) = some key) :
    best_match (kv :: rest) raw = some (key, (dictGet (kv :: rest) key).getD "") := by
  simp only [best_match, h]

/-- When tier 1 misses, `best_match` falls through to tiers 2 and 3. -/
theorem best_match_cons_tier23 (kv : String × String) (rest : Table) (raw : String)
    (h : dictGet (normMap (kv :: rest)) (normalize_phrase raw) = none) :
    best_match (kv :: rest) raw = bmTier23 (kv :: rest) (normalize_phrase raw) := by
  simp only [best_match, h]

theorem tier2cands_eq_nil (t : Table) (toks : List String)
    (h : ∀ kv ∈ t, keyOverlap toks kv.1 = 0) : tier2cands t toks = [] := by
  rw [tier2cands, List.filterMap_eq_nil_iff]
  intro kv hkv
  simp [h kv hkv]

theorem strInStr_empty_left (b : String) : strInStr "" b = true := by
  rw [strInStr, List.any_eq_true]
  exact ⟨0, by simp, by simp [List.isPrefixOf]⟩

/-- Counterexample to claim C2 as stated: with two registered phrases of
identical normalized form, the exact tier returns the *later* one even
when `resolve` is called with the earlier phrase verbatim
(the normalized-key dict comprehension is last-write-wins). -/
theorem c2_counterexample :
    best_match [("scrape the data", "A"), ("scrape data", "B")] "scrape the data" =
      some ("scrape data", "B") ∧ ("scrape data" : String) ≠ "scrape the data" := by
  exact ⟨by decide, by decide⟩

/-- Amended claim C2: for a table containing the phrase `P`,
`resolve(table, P)` returns `P` itself with its stored path, provided no
*other* registered phrase shares `P`'s normalized form (without that
proviso the exact tier returns the last phrase with that normalized
form, see the counterexample). -/
theorem c2_amended_exact_match (t : Table) (P : String) (hmem : P ∈ t.map Prod.fst)
    (hu : ∀ kv ∈ t, kv.1 ≠ P → normalize_phrase kv.1 ≠ normalize_phrase P) :
    ∃ v, dictGet t P = some v ∧ best_match t P = some (P, v) := by
  obtain ⟨v, hv⟩ := dictGet_of_mem t P hmem
  refine ⟨v, hv, ?_⟩
  have h1 : dictGet (normMap t) (normalize_phrase P) = some P := by
    rw [dictGet_normMap]
    exact lastNormKey_self t P hmem hu
  rcases t with _ | ⟨kv0, rest0⟩
  · simp at hmem
  · rw [best_match_cons_tier1 kv0 rest0 P P h1, hv]
    rfl

/-- Witness for the amended C2 at a concrete table. -/
theorem c2_amended_witness :
    ∃ v, dictGet [("Scrape Program", "/s.py"), ("backup", "/b.py")] "Scrape Program" =
        some v ∧
      best_match [("Scrape Program", "/s.py"), ("backup", "/b.py")] "Scrape Program" =
        some ("Scrape Program", v) :=
  c2_amended_exact_match _ "Scrape Program" (by decide) (by decide)

/-- Counterexample to claim C10 as stated: with a raw phrase that
normalizes to the empty string but a table containing a phrase of empty
normalized form, tier 1 (not tier 3) fires and returns that phrase — not
the first registered entry. -/
theorem c10_counterexample :
    normalize_phrase "the" = "" ∧
    best_match [("x", "A"), ("the app", "B")] "the" = some ("the app", "B") ∧
    (("the app", "B") : String × String) ≠ ("x", "A") := by
  exact ⟨by decide, by decide, by decide⟩

/-- Amended claim C10: (a) if no registered phrase normalizes to the empty
string (so the empty normalized raw phrase reaches tier 3), a raw phrase
normalizing to `""` returns the first registered entry, because `"" in s`
is true for every `s`; and (b) a registered phrase of empty normalized
form is returned at tier 3 for every raw phrase that reaches tier 3,
provided no earlier-registered phrase passes the substring test first. -/
theorem c10_amended_empty_normalization :
    (∀ (kv : String × String) (rest : Table) (raw : String),
      normalize_phrase raw = "" →
      (∀ p ∈ kv :: rest, normalize_phrase p.1 ≠ "") →
      best_match (kv :: rest) raw = some (kv.1, kv.2)) ∧
    ∀ (pre post : Table) (k0 v0 : String) (raw : String),
      ((pre ++ (k0, v0) :: post).map Prod.fst).Nodup →
      normalize_phrase k0 = "" →
      (∀ p ∈ pre ++ (k0, v0) :: post,
        normalize_phrase p.1 ≠ normalize_phrase raw) →
      (∀ p ∈ pre ++ (k0, v0) :: post,
        keyOverlap (tokenList (normalize_phrase raw)) p.1 = 0) →
      (∀ p ∈ pre, substrTest (normalize_phrase raw) p.1 = false) →
      best_match (pre ++ (k0, v0) :: post) raw = some (k0, v0) := by
  constructor
  · intro kv rest raw hraw hne
    have h1 : dictGet (normMap (kv :: rest)) (normalize_phrase raw) = none := by
      rw [dictGet_normMap, lastNormKey_eq_none_iff]
      intro p hp
      rw [hraw]
      exact hne p hp
    have h2 : tier2cands (kv :: rest) (tokenList (normalize_phrase raw)) = [] := by
      refine tier2cands_eq_nil _ _ fun p _ => ?_
      rw [hraw]
      simp [tokenList, splitWsGo, keyOverlap]
    have h3 : (kv :: rest).find? (fun p => substrTest (normalize_phrase raw) p.1) =
        some kv := by
      refine List.find?_cons_of_pos _ ?_
      rw [substrTest, hraw, strInStr_empty_left]
      simp
    rw [best_match_cons_tier23 kv rest raw h1]
    simp only [bmTier23, h2, h3]
    simp [dictGet]
  · intro pre post k0 v0 raw hnd hk0 hex hov hpre
    have htne : pre ++ (k0, v0) :: post ≠ [] := by
      cases pre <;> simp
    have h1 : dictGet (normMap (pre ++ (k0, v0) :: post)) (normalize_phrase raw) = none := by
      rw [dictGet_normMap, lastNormKey_eq_none_iff]
      exact hex
    have h2 : tier2cands (pre ++ (k0, v0) :: post)
        (tokenList (normalize_phrase raw)) = [] := tier2cands_eq_nil _ _ hov
    have hk0sub : substrTest (normalize_phrase raw) k0 = true := by
      rw [substrTest, hk0, strInStr_empty_left]
      simp
    have h3 : (pre ++ (k0, v0) :: post).find?
        (fun p => substrTest (normalize_phrase raw) p.1) = some (k0, v0) := by
      rw [List.find?_append]
      have hpre' : pre.find? (fun p => substrTest (normalize_phrase raw) p.1) = none := by
        rw [List.find?_eq_none]
        intro p hp
        simp [hpre p hp]
      rw [hpre', Option.none_or]
      exact List.find?_cons_of_pos _ (by simpa using hk0sub)
    have h4 : dictGet (pre ++ (k0, v0) :: post) k0 = some v0 :=
      dictGet_append_nodup pre post k0 v0 hnd
    rcases hp : pre ++ (k0, v0) :: post with _ | ⟨kv, rest⟩
    · exact absurd hp htne
    · rw [hp] at h1 h2 h3 h4
      rw [best_match_cons_tier23 kv rest raw h1]
      simp only [bmTier23, h2, h3]
      simp [h4]

/-- Witness for the amended C10: part (a) at a table with no empty-norm
phrase and the raw phrase "the"; part (b) at a table whose second entry
has empty normalized form and a raw phrase with no overlap anywhere. -/
theorem c10_amended_witness :
    best_match [("backup", "/b.py"), ("deploy", "/d.py")] "the" =
      some ("backup", "/b.py") ∧
    best_match [("zq", "/z.py"), ("the app", "/a.py")] "hello" =
      some ("the app", "/a.py") := by
  constructor
  · exact c10_amended_empty_normalization.1 ("backup", "/b.py") [("deploy", "/d.py")]
      "the" (by decide) (by decide)
  · exact c10_amended_empty_normalization.2 [("zq", "/z.py")] [] "the app" "/a.py"
      "hello" (by decide) (by decide) (by decide) (by decide) (by decide)

/-- Claim C1: when the token-overlap tier is reached (no exact normalized
match, some registered phrase with nonzero overlap), `resolve` returns a
registered phrase of maximal token overlap with the normalized raw
phrase, and of minimal normalized length among those tied at that
overlap. -/
theorem c1_token_overlap_tier (t : Table) (raw : String)
    (hex : ∀ k ∈ t.map Prod.fst, normalize_phrase k ≠ normalize_phrase raw)
    (hov : ∃ k ∈ t.map Prod.fst,
      0 < keyOverlap (tokenList (normalize_phrase raw)) k) :
    ∃ k v, best_match t raw = some (k, v) ∧
      0 < keyOverlap (tokenList (normalize_phrase raw)) k ∧
      ∀ k' ∈ t.map Prod.fst,
        keyOverlap (tokenList (normalize_phrase raw)) k' ≤
          keyOverlap (tokenList (normalize_phrase raw)) k ∧
        (keyOverlap (tokenList (normalize_phrase raw)) k' =
            keyOverlap (tokenList (normalize_phrase raw)) k →
          (normalize_phrase k).length ≤ (normalize_phrase k').length) := by
  obtain ⟨k1, hk1mem, hk1ov⟩ := hov
  rcases t with _ | ⟨kv0, rest0⟩
  · simp at hk1mem
  set t := kv0 :: rest0 with ht
  have h1 : dictGet (normMap t) (normalize_phrase raw) = none := by
    rw [dictGet_normMap, lastNormKey_eq_none_iff]
    intro kv hkv
    exact hex kv.1 (List.mem_map_of_mem Prod.fst hkv)
  have hcne : tier2cands t (tokenList (normalize_phrase raw)) ≠ [] := by
    intro hnil
    rcases List.mem_map.mp hk1mem with ⟨kv, hkv, rfl⟩
    have hmemc : (((keyOverlap (tokenList (normalize_phrase raw)) kv.1,
        (normalize_phrase kv.1).length), kv.1) : Cand) ∈
        tier2cands t (tokenList (normalize_phrase raw)) := by
      rw [tier2cands]
      exact List.mem_filterMap.mpr ⟨kv, hkv, by simp [hk1ov]⟩
    rw [hnil] at hmemc
    simp at hmemc
  rcases hc : tier2cands t (tokenList (normalize_phrase raw)) with _ | ⟨c, cs⟩
  · exact absurd hc hcne
  · have hpbmem : pickBest c cs ∈ tier2cands t (tokenList (normalize_phrase raw)) := by
      rw [hc]
      exact pickBest_mem c cs
    rw [tier2cands] at hpbmem
    obtain ⟨kv, hkvmem, hkveq⟩ := List.mem_filterMap.mp hpbmem
    by_cases hpos : 0 < keyOverlap (tokenList (normalize_phrase raw)) kv.1
    · rw [if_pos hpos] at hkveq
      have hpb : pickBest c cs =
          (((keyOverlap (tokenList (normalize_phrase raw)) kv.1,
            (normalize_phrase kv.1).length), kv.1) : Cand) :=
        (Option.some.injEq _ _ ▸ hkveq).symm
      refine ⟨kv.1, (dictGet t kv.1).getD "", ?_, hpos, ?_⟩
      · rw [ht] at h1 hc ⊢
        rw [best_match_cons_tier23 kv0 rest0 raw h1]
        simp only [bmTier23, hc]
        rw [hpb]
      · intro k' hk'
        by_cases h0 : 0 < keyOverlap (tokenList (normalize_phrase raw)) k'
        · rcases List.mem_map.mp hk' with ⟨kv', hkv', rfl⟩
          have hmemc' : (((keyOverlap (tokenList (normalize_phrase raw)) kv'.1,
              (normalize_phrase kv'.1).length), kv'.1) : Cand) ∈
              tier2cands t (tokenList (normalize_phrase raw)) := by
            rw [tier2cands]
            exact List.mem_filterMap.mpr ⟨kv', hkv', by simp [h0]⟩
          rw [hc] at hmemc'
          have hnb := pickBest_not_better c cs _ hmemc'
          rw [hpb] at hnb
          have harith := candBetter_false_elim _ _ _ _ _ _ hnb
          exact ⟨harith.1, fun heq => harith.2 heq⟩
        · constructor
          · omega
          · intro heq
            omega
    · rw [if_neg hpos] at hkveq
      exact Option.noConfusion hkveq

/-- Witness for C1: the spec's tie-break example, moved off the exact tier
by a raw phrase with an extra token — both keys overlap in one token, and
the shorter normalized key ("backup", 6 chars, vs "backup full",
11 chars) wins. -/
theorem c1_witness :
    ∃ k v, best_match [("backup script", "X"), ("backup the full script", "Y")]
        "backup files" = some (k, v) ∧
      0 < keyOverlap (tokenList (normalize_phrase "backup files")) k ∧
      ∀ k' ∈ ([("backup script", "X"), ("backup the full script", "Y")] : Table).map
          Prod.fst,
        keyOverlap (tokenList (normalize_phrase "backup files")) k' ≤
          keyOverlap (tokenList (normalize_phrase "backup files")) k ∧
        (keyOverlap (tokenList (normalize_phrase "backup files")) k' =
            keyOverlap (tokenList (normalize_phrase "backup files")) k →
          (normalize_phrase k).length ≤ (normalize_phrase k').length) :=
  c1_token_overlap_tier _ "backup files" (by decide) ⟨"backup script", by decide, by decide⟩

/-- Counterexample to claim C6 as stated: the voice path's background test
is a raw suffix test, not a whole-word test — the utterance "run command"
is treated as a background request for the phrase "comm". -/
theorem c6_counterexample :
    maybe_run_from_voice "run command" = some ("comm", true) ∧
      (some ("comm", true) : Option (String × Bool)) ≠ some ("command", false) := by
  exact ⟨by decide, by decide⟩

theorem trimBoth_cons_space (c0 : Char) (l : List Char) (h : isSpaceChar c0 = true) :
    trimBoth (c0 :: l) = trimBoth l := by
  rw [trimBoth, trimBoth, trimL, trimL, List.dropWhile_cons, if_pos h]

/-- Amended claim C6: the Command Layer extracts the substring following
the first whole-word occurrence of "run", and sets the Detached-mode flag
exactly when the extracted phrase ends with the letter sequence "and",
"ampersand" or "background" — a raw suffix test, not a whole-word test
(so "command" does trigger it) — stripping the longest such suffix before
forwarding. -/
theorem c6_amended_suffix_background (s : String) (hs : s ≠ "") :
    ∃ p b, maybe_run_from_voice ("run " ++ s) = some (p, b) ∧
      (b = true ↔ (endsWithStr "and" (strTrim s) = true ∨
        endsWithStr "ampersand" (strTrim s) = true ∨
        endsWithStr "background" (strTrim s) = true)) ∧
      (b = false → p = strTrim s) ∧
      (b = true → p = strTrim (stripBgSuffix (strTrim s))) := by
  obtain ⟨c, cs, hl⟩ : ∃ c cs, s.toList = c :: cs := by
    rcases hsl : s.toList with _ | ⟨c, cs⟩
    · refine absurd ?_ hs
      rcases s with ⟨d⟩
      cases hsl
      rfl
    · exact ⟨c, cs, rfl⟩
  have htext : ("run " ++ s) ≠ "" := by
    intro h
    have hlen := congrArg String.length h
    rw [String.length_append] at hlen
    have h4 : ("run " : String).length = 4 := rfl
    have h0 : ("" : String).length = 0 := rfl
    omega
  have htl : ("run " ++ s).toList = Char.ofNat 114 :: Char.ofNat 117 :: Char.ofNat 110 ::
      Char.ofNat 32 :: c :: cs := by
    show ("run " ++ s).data = _
    rw [String.data_append]
    have : s.data = c :: cs := hl
    rw [this]
    rfl
  have hfind : findRunRest (("run " ++ s).toList) false = some (Char.ofNat 32 :: c :: cs) := by
    rw [htl, findRunRest]
    have hcond : (!false &&
        ("run".toList.isPrefixOf (Char.ofNat 114 :: Char.ofNat 117 :: Char.ofNat 110 ::
          Char.ofNat 32 :: c :: cs)) &&
        voiceTailOk ((Char.ofNat 114 :: Char.ofNat 117 :: Char.ofNat 110 ::
          Char.ofNat 32 :: c :: cs).drop 3)) = true := by
      refine (Bool.and_eq_true _ _).mpr ⟨(Bool.and_eq_true _ _).mpr ⟨rfl, rfl⟩, ?_⟩
      show voiceTailOk (Char.ofNat 32 :: c :: cs) = true
      rw [voiceTailOk]
      refine (Bool.and_eq_true _ _).mpr ⟨by decide, rfl⟩
    rw [if_pos hcond]
    rfl
  have hpr : strTrim (String.mk (Char.ofNat 32 :: c :: cs)) = strTrim s := by
    show String.mk (trimBoth (Char.ofNat 32 :: c :: cs)) = String.mk (trimBoth s.toList)
    rw [trimBoth_cons_space _ _ (by decide), hl]
  rw [maybe_run_from_voice, if_neg htext, hfind]
  simp only [hpr]
  refine ⟨_, _, rfl, ?_, ?_, ?_⟩
  · simp [Bool.or_eq_true, or_assoc]
  · intro hb
    rw [if_neg (by simp [hb])]
  · intro hb
    rw [if_pos (by simp [hb])]

/-- Witness for the amended C6: "run command" yields the background flag
and the suffix-stripped phrase "comm". -/
theorem c6_amended_witness :
    maybe_run_from_voice ("run " ++ "command") = some ("comm", true) := by
  obtain ⟨p, b, h1, h2, h3, h4⟩ := c6_amended_suffix_background "command" (by decide)
  have hb : b = true := h2.mpr (Or.inl (by decide))
  have hp : p = "comm" := by
    rw [h4 hb]
    decide
  rw [h1, hp, hb]

/-! ### Normalizer lemmas (claim C4)

Character-class facts, then the scanner (`subWF`) theory: a position-wise
"no match anywhere" predicate `noMatches`, the fact that substitution
output is match-free, that it stays match-free under the other pass and
under whitespace collapsing and trimming, and the resulting idempotence
of `normalize_phrase`. -/

theorem spaceChar_not_word (c : Char) (h : isSpaceChar c = true) : isWordChar c = false := by
  rw [isSpaceChar] at h
  simp only [Bool.or_eq_true, beq_iff_eq] at h
  rcases h with ((((h | h) | h) | h) | h) | h <;> subst h <;> decide

theorem word_not_space (c : Char) (h : isWordChar c = true) : isSpaceChar c = false := by
  by_contra hc
  rw [Bool.not_eq_false] at hc
  rw [spaceChar_not_word c hc] at h
  exact Bool.noConfusion h

theorem toNat_ofNat_valid (n : Nat) (h : n.isValidChar) : (Char.ofNat n).toNat = n := by
  unfold Char.ofNat
  rw [dif_pos h]
  rfl

theorem lowerChar_idem (c : Char) : lowerChar (lowerChar c) = lowerChar c := by
  by_cases h : 65 ≤ c.toNat ∧ c.toNat ≤ 90
  · have h1 : lowerChar c = Char.ofNat (c.toNat + 32) := if_pos h
    have hv : (c.toNat + 32).isValidChar := Or.inl (by omega)
    have h2 : ¬(65 ≤ (lowerChar c).toNat ∧ (lowerChar c).toNat ≤ 90) := by
      rw [h1, toNat_ofNat_valid _ hv]
      omega
    exact if_neg h2
  · have h1 : lowerChar c = c := if_neg h
    rw [h1]
    exact if_neg h

theorem lowerChar_word (c : Char) (h : isWordChar c = true) :
    isWordChar (lowerChar c) = true := by
  by_cases hc : 65 ≤ c.toNat ∧ c.toNat ≤ 90
  · have h1 : lowerChar c = Char.ofNat (c.toNat + 32) := if_pos hc
    rw [h1]
    obtain ⟨hlo, hhi⟩ := hc
    set k := c.toNat with hk
    interval_cases k <;> decide
  · have h1 : lowerChar c = c := if_neg hc
    rw [h1]
    exact h

theorem space_lower_fixed : lowerChar (Char.ofNat 32) = Char.ofNat 32 := by decide

/-- The words of both substitution passes are nonempty strings of word
characters. -/
theorem articleWords_wordChar : ∀ w ∈ articleWords, ∀ ch ∈ w.val, isWordChar ch = true := by
  decide

theorem fillerWords_wordChar : ∀ w ∈ fillerWords, ∀ ch ∈ w.val, isWordChar ch = true := by
  decide

theorem subWF_nil (ws : List RWord) (n : Nat) (b : Bool) : subWF ws n [] b = [] := by
  cases n <;> rfl

theorem subWF_succ_cons_true (ws : List RWord) (n : Nat) (c : Char) (cs : List Char) :
    subWF ws (n + 1) (c :: cs) true = c :: subWF ws n cs (isWordChar c) := by
  simp [subWF]

theorem subWF_succ_cons_match (ws : List RWord) (n : Nat) (c : Char) (cs rest : List Char)
    (h : tryWords ws (c :: cs) = some rest) :
    subWF ws (n + 1) (c :: cs) false = Char.ofNat 32 :: subWF ws n rest true := by
  simp [subWF, h]

theorem subWF_succ_cons_nomatch (ws : List RWord) (n : Nat) (c : Char) (cs : List Char)
    (h : tryWords ws (c :: cs) = none) :
    subWF ws (n + 1) (c :: cs) false = c :: subWF ws n cs (isWordChar c) := by
  simp [subWF, h]

theorem tryMatch_isSome_iff (w cs : List Char) :
    (tryMatch w cs).isSome = true ↔
      (w.isPrefixOf cs = true ∧ boundaryOk (cs.drop w.length) = true) := by
  rw [tryMatch]
  by_cases h1 : w.isPrefixOf cs = true
  · rw [if_pos h1]
    by_cases h2 : boundaryOk (cs.drop w.length) = true
    · rw [if_pos h2]
      simp [h1, h2]
    · rw [if_neg h2]
      simp [h2]
  · rw [if_neg h1]
    simp [h1]

theorem tryMatch_some_facts (w cs rest : List Char) (hw : w ≠ [])
    (h : tryMatch w cs = some rest) :
    rest = cs.drop w.length ∧ rest.length < cs.length ∧ boundaryOk rest = true := by
  rw [tryMatch] at h
  by_cases h1 : w.isPrefixOf cs = true
  · rw [if_pos h1] at h
    by_cases h2 : boundaryOk (cs.drop w.length) = true
    · rw [if_pos h2] at h
      have hr : rest = cs.drop w.length := (Option.some.injEq _ _ ▸ h).symm
      have hlen : w.length ≤ cs.length :=
        (List.isPrefixOf_iff_prefix.mp h1).length_le
      have hwpos : 0 < w.length := List.length_pos.mpr hw
      refine ⟨hr, ?_, hr ▸ h2⟩
      rw [hr, List.length_drop]
      omega
    · rw [if_neg h2] at h
      exact Option.noConfusion h
  · rw [if_neg h1] at h
    exact Option.noConfusion h

theorem tryWords_some_facts (ws : List RWord) (cs rest : List Char)
    (h : tryWords ws cs = some rest) :
    (∃ k, rest = cs.drop k) ∧ rest.length < cs.length ∧ boundaryOk rest = true := by
  obtain ⟨w, _, hw⟩ := List.exists_of_findSome?_eq_some h
  obtain ⟨hr, hlen, hb⟩ := tryMatch_some_facts w.val cs rest w.property hw
  exact ⟨⟨w.val.length, hr⟩, hlen, hb⟩

theorem tryWords_none_iff (ws : List RWord) (cs : List Char) :
    tryWords ws cs = none ↔ ∀ w ∈ ws, tryMatch w.val cs = none := by
  rw [tryWords, List.findSome?_eq_none_iff]

/-- No word of the pattern can match at a position whose first character is
not a word character (all pattern words start with word characters). -/
theorem tryWords_none_of_head (ws : List RWord)
    (hws : ∀ w ∈ ws, ∀ ch ∈ w.val, isWordChar ch = true)
    (c : Char) (cs : List Char) (hc : isWordChar c = false) :
    tryWords ws (c :: cs) = none := by
  rw [tryWords_none_iff]
  intro w hwmem
  rcases hww : w.val with _ | ⟨wh, wtl⟩
  · exact absurd hww w.property
  · have hwh : isWordChar wh = true := hws w hwmem wh (by rw [hww]; exact List.mem_cons_self _ _)
    have hne : (wh == c) = false := by
      refine beq_eq_false_iff_ne.mpr ?_
      intro hEq
      rw [hEq, hc] at hwh
      exact Bool.noConfusion hwh
    have hpre : (wh :: wtl).isPrefixOf (c :: cs) = false := by
      simp [List.isPrefixOf, hne]
    rw [tryMatch, hpre]
    simp

theorem subWF_fuel (ws : List RWord) :
    ∀ n m cs b, cs.length ≤ n → cs.length ≤ m → subWF ws n cs b = subWF ws m cs b := by
  intro n
  induction n with
  | zero =>
    intro m cs b hn _
    have : cs = [] := List.eq_nil_of_length_eq_zero (by omega)
    subst this
    rw [subWF_nil, subWF_nil]
  | succ n ih =>
    intro m cs b hn hm
    rcases cs with _ | ⟨c, cs'⟩
    · rw [subWF_nil, subWF_nil]
    · rcases m with _ | m'
      · simp at hm
      · rcases b with _ | _
        · rcases htw : tryWords ws (c :: cs') with _ | rest
          · rw [subWF_succ_cons_nomatch _ _ _ _ htw, subWF_succ_cons_nomatch _ _ _ _ htw]
            rw [ih m' cs' (isWordChar c) (by simpa using hn) (by simpa using hm)]
          · obtain ⟨_, hlen, _⟩ := tryWords_some_facts ws _ _ htw
            rw [subWF_succ_cons_match _ _ _ _ _ htw, subWF_succ_cons_match _ _ _ _ _ htw]
            rw [ih m' rest true (by simp at hn hlen ⊢; omega)
              (by simp at hm hlen ⊢; omega)]
        · rw [subWF_succ_cons_true, subWF_succ_cons_true]
          rw [ih m' cs' (isWordChar c) (by simpa using hn) (by simpa using hm)]

/-- Transfer of a word match backwards through one substitution pass: the
scanner only replaces segments by single spaces, so a word of word
characters that matches (with boundaries) in the output already matches
at the corresponding position of the input. -/
theorem subWF_prefix_transfer (ws : List RWord) :
    ∀ n w cs b, cs.length ≤ n → (∀ ch ∈ w, isWordChar ch = true) → (w = [] → b = true) →
      w.isPrefixOf (subWF ws n cs b) = true →
      boundaryOk ((subWF ws n cs b).drop w.length) = true →
      w.isPrefixOf cs = true ∧ boundaryOk (cs.drop w.length) = true := by
  intro n
  induction n with
  | zero =>
    intro w cs b hn _ _ hpre hbd
    have hnil : cs = [] := List.eq_nil_of_length_eq_zero (by omega)
    subst hnil
    rw [subWF_nil] at hpre hbd
    exact ⟨hpre, hbd⟩
  | succ n ih =>
    intro w cs b hn hw hwb hpre hbd
    rcases cs with _ | ⟨c, cs'⟩
    · rw [subWF_nil] at hpre hbd
      exact ⟨hpre, hbd⟩
    · have hlen' : cs'.length ≤ n := by simpa using hn
      rcases w with _ | ⟨x, w'⟩
      · have hb : b = true := hwb rfl
        subst hb
        rw [subWF_succ_cons_true] at hbd
        refine ⟨rfl, ?_⟩
        simp only [List.length_nil, List.drop_zero] at hbd ⊢
        rw [boundaryOk] at hbd ⊢
        exact hbd
      · have hx : isWordChar x = true := hw x (List.mem_cons_self _ _)
        have hcopy : ∀ hpre2 : (x :: w').isPrefixOf
              (c :: subWF ws n cs' (isWordChar c)) = true,
            boundaryOk ((c :: subWF ws n cs' (isWordChar c)).drop (x :: w').length) = true →
            (x :: w').isPrefixOf (c :: cs') = true ∧
              boundaryOk ((c :: cs').drop (x :: w').length) = true := by
          intro hpre2 hbd2
          rw [List.isPrefixOf] at hpre2
          obtain ⟨hxc, hpre'⟩ := (Bool.and_eq_true _ _).mp hpre2
          have hxceq : x = c := beq_iff_eq.mp hxc
          have hwcc : isWordChar c = true := hxceq ▸ hx
          rw [List.length_cons, List.drop_succ_cons] at hbd2
          rw [hwcc] at hpre' hbd2
          obtain ⟨hp, hb⟩ := ih w' cs' true hlen'
            (fun ch hch => hw ch (List.mem_cons_of_mem _ hch)) (fun _ => rfl) hpre' hbd2
          constructor
          · rw [List.isPrefixOf]
            exact (Bool.and_eq_true _ _).mpr ⟨hxc, hp⟩
          · rw [List.length_cons, List.drop_succ_cons]
            exact hb
        rcases b with _|_
        · rcases htw : tryWords ws (c :: cs') with _ | rest
          · rw [subWF_succ_cons_nomatch _ _ _ _ htw] at hpre hbd
            exact hcopy hpre hbd
          · rw [subWF_succ_cons_match _ _ _ _ _ htw] at hpre
            exfalso
            rw [List.isPrefixOf] at hpre
            obtain ⟨hxc, _⟩ := (Bool.and_eq_true _ _).mp hpre
            have hxsp : x = Char.ofNat 32 := beq_iff_eq.mp hxc
            rw [hxsp] at hx
            exact Bool.noConfusion ((by decide : isWordChar (Char.ofNat 32) = false) ▸ hx)
        · rw [subWF_succ_cons_true] at hpre hbd
          exact hcopy hpre hbd

/-- `noMatches` is insensitive to the flag when it is weakened to `true`. -/
theorem noMatches_true_of (ws : List RWord) (cs : List Char) (b : Bool)
    (h : noMatches ws cs b = true) : noMatches ws cs true = true := by
  rcases cs with _ | ⟨c, cs'⟩
  · rfl
  · simp only [noMatches] at h ⊢
    obtain ⟨_, ht⟩ := (Bool.and_eq_true _ _).mp h
    exact (Bool.and_eq_true _ _).mpr ⟨rfl, ht⟩

theorem noMatches_drop_true (ws : List RWord) :
    ∀ cs b, noMatches ws cs b = true → ∀ k, noMatches ws (cs.drop k) true = true := by
  intro cs
  induction cs with
  | nil =>
    intro b _ k
    rw [List.drop_nil]
    rfl
  | cons c cs' ihc =>
    intro b h k
    rcases k with _ | k'
    · exact noMatches_true_of ws _ b h
    · rw [List.drop_succ_cons]
      simp only [noMatches] at h
      obtain ⟨_, ht⟩ := (Bool.and_eq_true _ _).mp h
      exact ihc (isWordChar c) ht k'

/-- If no word of the pattern matches anywhere in the tail, the scanner
leaves the input unchanged. -/
theorem subWF_of_noMatches (ws : List RWord) :
    ∀ n cs b, noMatches ws cs b = true → subWF ws n cs b = cs := by
  intro n
  induction n with
  | zero =>
    intro cs b _
    rfl
  | succ n ih =>
    intro cs b h
    rcases cs with _ | ⟨c, cs'⟩
    · rw [subWF_nil]
    · simp only [noMatches] at h
      obtain ⟨hhead, htail⟩ := (Bool.and_eq_true _ _).mp h
      rcases b with _|_
      · have hnone : tryWords ws (c :: cs') = none := by
          rcases htw : tryWords ws (c :: cs') with _ | r
          · rfl
          · rw [htw] at hhead
            simp at hhead
        rw [subWF_succ_cons_nomatch _ _ _ _ hnone, ih cs' _ htail]
      · rw [subWF_succ_cons_true, ih cs' _ htail]

theorem noMatches_false_of_head (ws : List RWord)
    (hws : ∀ w ∈ ws, ∀ ch ∈ w.val, isWordChar ch = true)
    (c : Char) (cs : List Char) (hc : isWordChar c = false)
    (h : noMatches ws (c :: cs) true = true) : noMatches ws (c :: cs) false = true := by
  simp only [noMatches] at h ⊢
  obtain ⟨_, htail⟩ := (Bool.and_eq_true _ _).mp h
  refine (Bool.and_eq_true _ _).mpr ⟨?_, htail⟩
  rw [tryWords_none_of_head ws hws c cs hc]
  rfl

/-- Flag upgrade for a substitution output whose input starts at a word
boundary. -/
theorem noMatches_subWF_false_of_true (ws1 ws2 : List RWord)
    (hws1 : ∀ w ∈ ws1, ∀ ch ∈ w.val, isWordChar ch = true)
    (n : Nat) (rest : List Char) (hbr : boundaryOk rest = true) (hrl : rest.length ≤ n)
    (h : noMatches ws1 (subWF ws2 n rest true) true = true) :
    noMatches ws1 (subWF ws2 n rest true) false = true := by
  rcases rest with _ | ⟨d, ds⟩
  · rw [subWF_nil]
    rfl
  · have hd : isWordChar d = false := by
      rw [boundaryOk] at hbr
      simpa using hbr
    rcases n with _ | n'
    · simp at hrl
    · rw [subWF_succ_cons_true] at h ⊢
      exact noMatches_false_of_head ws1 hws1 d _ hd h

/-- The output of a substitution pass contains no residual matches of the
same pattern. -/
theorem noMatches_subWF (ws : List RWord)
    (hws : ∀ w ∈ ws, ∀ ch ∈ w.val, isWordChar ch = true) :
    ∀ n cs b, cs.length ≤ n → noMatches ws (subWF ws n cs b) b = true := by
  intro n
  induction n with
  | zero =>
    intro cs b hn
    have hnil : cs = [] := List.eq_nil_of_length_eq_zero (by omega)
    subst hnil
    rw [subWF_nil]
    rfl
  | succ n ih =>
    intro cs b hn
    rcases cs with _ | ⟨c, cs'⟩
    · rw [subWF_nil]
      rfl
    · have hlen' : cs'.length ≤ n := by simpa using hn
      rcases b with _|_
      · rcases htw : tryWords ws (c :: cs') with _ | rest
        · rw [subWF_succ_cons_nomatch _ _ _ _ htw]
          simp only [noMatches]
          refine (Bool.and_eq_true _ _).mpr ⟨?_, ih cs' (isWordChar c) hlen'⟩
          rcases htw2 : tryWords ws (c :: subWF ws n cs' (isWordChar c)) with _ | r2
          · rfl
          · exfalso
            obtain ⟨w, hwmem, hwm⟩ := List.exists_of_findSome?_eq_some htw2
            have hsome : (tryMatch w.val (c :: subWF ws n cs' (isWordChar c))).isSome = true := by
              rw [hwm]
              rfl
            obtain ⟨hp, hb⟩ := (tryMatch_isSome_iff _ _).mp hsome
            have hout : (c :: subWF ws n cs' (isWordChar c)) =
                subWF ws (n + 1) (c :: cs') false :=
              (subWF_succ_cons_nomatch _ _ _ _ htw).symm
            rw [hout] at hp hb
            obtain ⟨hp', hb'⟩ := subWF_prefix_transfer ws (n + 1) w.val (c :: cs') false
              (by simpa using hn) (hws w hwmem) (fun hEq => absurd hEq w.property) hp hb
            have hS : (tryMatch w.val (c :: cs')).isSome = true :=
              (tryMatch_isSome_iff _ _).mpr ⟨hp', hb'⟩
            rw [(tryWords_none_iff ws (c :: cs')).mp htw w hwmem] at hS
            exact Bool.noConfusion hS
        · rw [subWF_succ_cons_match _ _ _ _ _ htw]
          obtain ⟨⟨k, hk⟩, hlenr, hbr⟩ := tryWords_some_facts ws _ _ htw
          have hrestlen : rest.length ≤ n := by
            simp only [List.length_cons] at hlenr
            omega
          simp only [noMatches]
          refine (Bool.and_eq_true _ _).mpr ⟨?_, ?_⟩
          · rw [tryWords_none_of_head ws hws _ _ (by decide)]
            rfl
          · have hwc : isWordChar (Char.ofNat 32) = false := by decide
            rw [hwc]
            exact noMatches_subWF_false_of_true ws ws hws n rest hbr hrestlen
              (ih rest true hrestlen)
      · rw [subWF_succ_cons_true]
        simp only [noMatches]
        exact (Bool.and_eq_true _ _).mpr ⟨rfl, ih cs' (isWordChar c) hlen'⟩

/-- Match-freeness for one pattern is preserved by a substitution pass for
another pattern. -/
theorem noMatches_preserved_subWF (ws1 ws2 : List RWord)
    (hws1 : ∀ w ∈ ws1, ∀ ch ∈ w.val, isWordChar ch = true) :
    ∀ n cs b, cs.length ≤ n → noMatches ws1 cs b = true →
      noMatches ws1 (subWF ws2 n cs b) b = true := by
  intro n
  induction n with
  | zero =>
    intro cs b hn h
    have hnil : cs = [] := List.eq_nil_of_length_eq_zero (by omega)
    subst hnil
    rw [subWF_nil]
    rfl
  | succ n ih =>
    intro cs b hn h
    rcases cs with _ | ⟨c, cs'⟩
    · rw [subWF_nil]
      rfl
    · have hlen' : cs'.length ≤ n := by simpa using hn
      simp only [noMatches] at h
      obtain ⟨hhead, htail⟩ := (Bool.and_eq_true _ _).mp h
      rcases b with _|_
      · rcases htw : tryWords ws2 (c :: cs') with _ | rest
        · rw [subWF_succ_cons_nomatch _ _ _ _ htw]
          simp only [noMatches]
          refine (Bool.and_eq_true _ _).mpr ⟨?_, ih cs' (isWordChar c) hlen' htail⟩
          rcases htw2 : tryWords ws1 (c :: subWF ws2 n cs' (isWordChar c)) with _ | r2
          · rfl
          · exfalso
            obtain ⟨w, hwmem, hwm⟩ := List.exists_of_findSome?_eq_some htw2
            have hsome : (tryMatch w.val (c :: subWF ws2 n cs' (isWordChar c))).isSome = true := by
              rw [hwm]
              rfl
            obtain ⟨hp, hb⟩ := (tryMatch_isSome_iff _ _).mp hsome
            have hout : (c :: subWF ws2 n cs' (isWordChar c)) =
                subWF ws2 (n + 1) (c :: cs') false :=
              (subWF_succ_cons_nomatch _ _ _ _ htw).symm
            rw [hout] at hp hb
            obtain ⟨hp', hb'⟩ := subWF_prefix_transfer ws2 (n + 1) w.val (c :: cs') false
              (by simpa using hn) (hws1 w hwmem) (fun hEq => absurd hEq w.property) hp hb
            have hS : (tryMatch w.val (c :: cs')).isSome = true :=
              (tryMatch_isSome_iff _ _).mpr ⟨hp', hb'⟩
            have hnone1 : tryWords ws1 (c :: cs') = none := by
              rcases htw1 : tryWords ws1 (c :: cs') with _ | r
              · rfl
              · rw [htw1] at hhead
                simp at hhead
            rw [(tryWords_none_iff ws1 (c :: cs')).mp hnone1 w hwmem] at hS
            exact Bool.noConfusion hS
        · rw [subWF_succ_cons_match _ _ _ _ _ htw]
          obtain ⟨⟨k, hk⟩, hlenr, hbr⟩ := tryWords_some_facts ws2 _ _ htw
          have hrestlen : rest.length ≤ n := by
            simp only [List.length_cons] at hlenr
            omega
          simp only [noMatches]
          refine (Bool.and_eq_true _ _).mpr ⟨?_, ?_⟩
          · rw [tryWords_none_of_head ws1 hws1 _ _ (by decide)]
            rfl
          · have hwc : isWordChar (Char.ofNat 32) = false := by decide
            rw [hwc]
            have hrest_nm : noMatches ws1 rest true = true := by
              rw [hk]
              exact noMatches_drop_true ws1 (c :: cs') false h k
            exact noMatches_subWF_false_of_true ws1 ws2 hws1 n rest hbr hrestlen
              (ih rest true hrestlen hrest_nm)
      · rw [subWF_succ_cons_true]
        simp only [noMatches]
        exact (Bool.and_eq_true _ _).mpr ⟨rfl, ih cs' (isWordChar c) hlen' htail⟩

theorem squeezeGo_cons_space_run (c : Char) (cs : List Char) (h : isSpaceChar c = true) :
    squeezeGo (c :: cs) true = squeezeGo cs true := by
  simp [squeezeGo, h]

theorem squeezeGo_cons_space_new (c : Char) (cs : List Char) (h : isSpaceChar c = true) :
    squeezeGo (c :: cs) false = Char.ofNat 32 :: squeezeGo cs true := by
  simp [squeezeGo, h]

theorem squeezeGo_cons_nonspace (c : Char) (cs : List Char) (b : Bool)
    (h : isSpaceChar c = false) : squeezeGo (c :: cs) b = c :: squeezeGo cs false := by
  rcases b with _|_ <;> simp [squeezeGo, h]

/-- Transfer of a word match backwards through whitespace collapsing:
squeezing never glues two non-space characters together, so a boundary
match in the output is a boundary match in the input. -/
theorem squeeze_prefix_transfer (w : List Char) (hw : ∀ ch ∈ w, isWordChar ch = true) :
    ∀ cs, w.isPrefixOf (squeezeGo cs false) = true →
      boundaryOk ((squeezeGo cs false).drop w.length) = true →
      w.isPrefixOf cs = true ∧ boundaryOk (cs.drop w.length) = true := by
  induction w with
  | nil =>
    intro cs _ hbd
    refine ⟨List.isPrefixOf_nil_left, ?_⟩
    simp only [List.length_nil, List.drop_zero] at hbd ⊢
    rcases cs with _ | ⟨c, cs'⟩
    · exact hbd
    · by_cases hsp : isSpaceChar c = true
      · rw [boundaryOk, spaceChar_not_word c hsp]
        rfl
      · have hsp' : isSpaceChar c = false := by simpa using hsp
        rw [squeezeGo_cons_nonspace c cs' false hsp'] at hbd
        rw [boundaryOk] at hbd ⊢
        exact hbd
  | cons x w' ihw =>
    intro cs hpre hbd
    have hx : isWordChar x = true := hw x (List.mem_cons_self _ _)
    rcases cs with _ | ⟨c, cs'⟩
    · simp [List.isPrefixOf] at hpre
    · by_cases hsp : isSpaceChar c = true
      · rw [squeezeGo_cons_space_new c cs' hsp, List.isPrefixOf] at hpre
        obtain ⟨hxc, _⟩ := (Bool.and_eq_true _ _).mp hpre
        exfalso
        have hxeq : x = Char.ofNat 32 := beq_iff_eq.mp hxc
        rw [hxeq] at hx
        exact Bool.noConfusion ((by decide : isWordChar (Char.ofNat 32) = false) ▸ hx)
      · have hsp' : isSpaceChar c = false := by simpa using hsp
        rw [squeezeGo_cons_nonspace c cs' false hsp'] at hpre hbd
        rw [List.isPrefixOf] at hpre
        obtain ⟨hxc, hpre'⟩ := (Bool.and_eq_true _ _).mp hpre
        rw [List.length_cons, List.drop_succ_cons] at hbd
        obtain ⟨hp, hb⟩ := ihw (fun ch hch => hw ch (List.mem_cons_of_mem _ hch)) cs' hpre' hbd
        constructor
        · rw [List.isPrefixOf]
          exact (Bool.and_eq_true _ _).mpr ⟨hxc, hp⟩
        · rw [List.length_cons, List.drop_succ_cons]
          exact hb

/-- Match-freeness is preserved by whitespace collapsing. -/
theorem noMatches_squeezeGo (ws : List RWord)
    (hws : ∀ w ∈ ws, ∀ ch ∈ w.val, isWordChar ch = true) :
    ∀ cs, (∀ b, noMatches ws cs b = true → noMatches ws (squeezeGo cs false) b = true) ∧
      (noMatches ws cs false = true → noMatches ws (squeezeGo cs true) false = true) := by
  intro cs
  induction cs with
  | nil =>
    exact ⟨fun b h => h, fun h => h⟩
  | cons c cs' ihc =>
    obtain ⟨ihP, ihT⟩ := ihc
    have hP : ∀ b, noMatches ws (c :: cs') b = true →
        noMatches ws (squeezeGo (c :: cs') false) b = true := by
      intro b h
      simp only [noMatches] at h
      obtain ⟨hhead, htail⟩ := (Bool.and_eq_true _ _).mp h
      by_cases hsp : isSpaceChar c = true
      · rw [squeezeGo_cons_space_new c cs' hsp]
        simp only [noMatches]
        refine (Bool.and_eq_true _ _).mpr ⟨?_, ?_⟩
        · rw [tryWords_none_of_head ws hws _ _ (by decide)]
          simp
        · have hwc : isWordChar (Char.ofNat 32) = false := by decide
          rw [hwc]
          refine ihT ?_
          rw [spaceChar_not_word c hsp] at htail
          exact htail
      · have hsp' : isSpaceChar c = false := by simpa using hsp
        rw [squeezeGo_cons_nonspace c cs' false hsp']
        simp only [noMatches]
        refine (Bool.and_eq_true _ _).mpr ⟨?_, ihP (isWordChar c) htail⟩
        rcases b with _|_
        · rcases htw2 : tryWords ws (c :: squeezeGo cs' false) with _ | r2
          · rfl
          · exfalso
            obtain ⟨w, hwmem, hwm⟩ := List.exists_of_findSome?_eq_some htw2
            have hsome : (tryMatch w.val (c :: squeezeGo cs' false)).isSome = true := by
              rw [hwm]
              rfl
            obtain ⟨hp, hb⟩ := (tryMatch_isSome_iff _ _).mp hsome
            have hout : (c :: squeezeGo cs' false) = squeezeGo (c :: cs') false :=
              (squeezeGo_cons_nonspace c cs' false hsp').symm
            rw [hout] at hp hb
            obtain ⟨hp', hb'⟩ := squeeze_prefix_transfer w.val (hws w hwmem) (c :: cs') hp hb
            have hS : (tryMatch w.val (c :: cs')).isSome = true :=
              (tryMatch_isSome_iff _ _).mpr ⟨hp', hb'⟩
            have hnone : tryWords ws (c :: cs') = none := by
              rcases htw1 : tryWords ws (c :: cs') with _ | r
              · rfl
              · rw [htw1] at hhead
                simp at hhead
            rw [(tryWords_none_iff ws _).mp hnone w hwmem] at hS
            exact Bool.noConfusion hS
        · rfl
    refine ⟨hP, ?_⟩
    intro h
    by_cases hsp : isSpaceChar c = true
    · rw [squeezeGo_cons_space_run c cs' hsp]
      refine ihT ?_
      simp only [noMatches] at h
      obtain ⟨_, htail⟩ := (Bool.and_eq_true _ _).mp h
      rw [spaceChar_not_word c hsp] at htail
      exact htail
    · have hsp' : isSpaceChar c = false := by simpa using hsp
      have heq : squeezeGo (c :: cs') true = squeezeGo (c :: cs') false := by
        rw [squeezeGo_cons_nonspace c cs' true hsp', squeezeGo_cons_nonspace c cs' false hsp']
      rw [heq]
      exact hP false h

theorem goodSpaces_tail (c : Char) (cs : List Char) (h : goodSpaces (c :: cs) = true) :
    goodSpaces cs = true := by
  rcases cs with _ | ⟨d, ds⟩
  · rfl
  · simp only [goodSpaces] at h
    exact ((Bool.and_eq_true _ _).mp h).2

theorem squeezeGo_head_nonspace_true :
    ∀ cs, squeezeGo cs true = [] ∨
      ∃ d ds, squeezeGo cs true = d :: ds ∧ isSpaceChar d = false := by
  intro cs
  induction cs with
  | nil => exact Or.inl rfl
  | cons c cs' ih =>
    by_cases hsp : isSpaceChar c = true
    · rw [squeezeGo_cons_space_run c cs' hsp]
      exact ih
    · have hsp' : isSpaceChar c = false := by simpa using hsp
      rw [squeezeGo_cons_nonspace c cs' true hsp']
      exact Or.inr ⟨c, squeezeGo cs' false, rfl, hsp'⟩

theorem goodSpaces_squeezeGo : ∀ cs b, goodSpaces (squeezeGo cs b) = true := by
  intro cs
  induction cs with
  | nil => intro b; cases b <;> rfl
  | cons c cs' ih =>
    intro b
    by_cases hsp : isSpaceChar c = true
    · rcases b with _|_
      · rw [squeezeGo_cons_space_new c cs' hsp]
        rcases squeezeGo_head_nonspace_true cs' with hnil | ⟨d, ds, hcons, hd⟩
        · rw [hnil]
          rfl
        · rw [hcons]
          simp only [goodSpaces]
          refine (Bool.and_eq_true _ _).mpr ⟨by rw [hd]; simp, ?_⟩
          rw [← hcons]
          exact ih true
      · rw [squeezeGo_cons_space_run c cs' hsp]
        exact ih true
    · have hsp' : isSpaceChar c = false := by simpa using hsp
      rw [squeezeGo_cons_nonspace c cs' b hsp']
      rcases hX : squeezeGo cs' false with _ | ⟨d, ds⟩
      · rfl
      · simp only [goodSpaces]
        refine (Bool.and_eq_true _ _).mpr ⟨by rw [hsp']; simp, ?_⟩
        rw [← hX]
        exact ih false

theorem squeezeGo_spaces_are_space :
    ∀ cs b c, c ∈ squeezeGo cs b → isSpaceChar c = true → c = Char.ofNat 32 := by
  intro cs
  induction cs with
  | nil =>
    intro b c hc _
    cases b <;> simp [squeezeGo] at hc
  | cons d cs' ih =>
    intro b c hc hcs
    by_cases hsp : isSpaceChar d = true
    · rcases b with _|_
      · rw [squeezeGo_cons_space_new d cs' hsp] at hc
        rcases List.mem_cons.mp hc with heq | hmem
        · exact heq
        · exact ih true c hmem hcs
      · rw [squeezeGo_cons_space_run d cs' hsp] at hc
        exact ih true c hc hcs
    · have hsp' : isSpaceChar d = false := by simpa using hsp
      rw [squeezeGo_cons_nonspace d cs' b hsp'] at hc
      rcases List.mem_cons.mp hc with heq | hmem
      · rw [heq] at hcs
        rw [hcs] at hsp'
        exact Bool.noConfusion hsp'
      · exact ih false c hmem hcs

theorem squeezeGo_eq_self_of_props :
    ∀ cs, goodSpaces cs = true →
      (∀ c ∈ cs, isSpaceChar c = true → c = Char.ofNat 32) → squeezeGo cs false = cs := by
  intro cs
  induction cs with
  | nil => intro _ _; rfl
  | cons c cs' ih =>
    intro hg hsp
    by_cases hc : isSpaceChar c = true
    · have hceq : c = Char.ofNat 32 := hsp c (List.mem_cons_self _ _) hc
      rw [squeezeGo_cons_space_new c cs' hc]
      rcases cs' with _ | ⟨d, ds⟩
      · rw [hceq]
        rfl
      · have hd : isSpaceChar d = false := by
          simp only [goodSpaces] at hg
          obtain ⟨hpair, _⟩ := (Bool.and_eq_true _ _).mp hg
          rw [hc] at hpair
          simpa using hpair
        rw [squeezeGo_cons_nonspace d ds true hd, ← squeezeGo_cons_nonspace d ds false hd]
        rw [ih (goodSpaces_tail _ _ hg) (fun x hx hsx => hsp x (List.mem_cons_of_mem _ hx) hsx)]
        rw [hceq]
    · have hc' : isSpaceChar c = false := by simpa using hc
      rw [squeezeGo_cons_nonspace c cs' false hc']
      rw [ih (goodSpaces_tail _ _ hg) (fun x hx hsx => hsp x (List.mem_cons_of_mem _ hx) hsx)]

theorem squeezeGo_eq_self_of_no_space (l : List Char)
    (h : ∀ c ∈ l, isSpaceChar c = false) : ∀ b, squeezeGo l b = l := by
  induction l with
  | nil => intro b; cases b <;> rfl
  | cons c cs ih =>
    intro b
    rw [squeezeGo_cons_nonspace c cs b (h c (List.mem_cons_self _ _))]
    rw [ih (fun x hx => h x (List.mem_cons_of_mem _ hx)) false]

theorem squeezeGo_mem :
    ∀ cs b c, c ∈ squeezeGo cs b → c ∈ cs ∨ c = Char.ofNat 32 := by
  intro cs
  induction cs with
  | nil =>
    intro b c hc
    cases b <;> simp [squeezeGo] at hc
  | cons d cs' ih =>
    intro b c hc
    by_cases hsp : isSpaceChar d = true
    · rcases b with _|_
      · rw [squeezeGo_cons_space_new d cs' hsp] at hc
        rcases List.mem_cons.mp hc with heq | hmem
        · exact Or.inr heq
        · rcases ih true c hmem with hm | hm
          · exact Or.inl (List.mem_cons_of_mem _ hm)
          · exact Or.inr hm
      · rw [squeezeGo_cons_space_run d cs' hsp] at hc
        rcases ih true c hc with hm | hm
        · exact Or.inl (List.mem_cons_of_mem _ hm)
        · exact Or.inr hm
    · have hsp' : isSpaceChar d = false := by simpa using hsp
      rw [squeezeGo_cons_nonspace d cs' b hsp'] at hc
      rcases List.mem_cons.mp hc with heq | hmem
      · exact Or.inl (heq ▸ List.mem_cons_self _ _)
      · rcases ih false c hmem with hm | hm
        · exact Or.inl (List.mem_cons_of_mem _ hm)
        · exact Or.inr hm

/-! Trimming: structure and match-freeness preservation. -/

theorem dropWhile_head_false (p : Char → Bool) :
    ∀ (l : List Char) c rest, l.dropWhile p = c :: rest → p c = false := by
  intro l
  induction l with
  | nil =>
    intro c rest h
    simp at h
  | cons x xs ih =>
    intro c rest h
    rw [List.dropWhile_cons] at h
    by_cases hx : p x = true
    · rw [if_pos hx] at h
      exact ih c rest h
    · rw [if_neg hx] at h
      injection h with h1 _
      rw [← h1]
      simpa using hx

theorem dropWhile_idem (p : Char → Bool) (l : List Char) :
    (l.dropWhile p).dropWhile p = l.dropWhile p := by
  rcases h : l.dropWhile p with _ | ⟨c, rest⟩
  · rfl
  · rw [List.dropWhile_cons, if_neg (by rw [dropWhile_head_false p l c rest h]; simp)]

theorem trimR_decomp (l : List Char) :
    ∃ ss, l = trimR l ++ ss ∧ ∀ c ∈ ss, isSpaceChar c = true := by
  refine ⟨(l.reverse.takeWhile isSpaceChar).reverse, ?_, ?_⟩
  · rw [trimR]
    rw [← List.reverse_append, List.takeWhile_append_dropWhile, List.reverse_reverse]
  · intro c hc
    rw [List.mem_reverse] at hc
    exact List.mem_takeWhile_imp hc

theorem noMatches_trimL (ws : List RWord) :
    ∀ cs, noMatches ws cs false = true → noMatches ws (trimL cs) false = true := by
  intro cs
  induction cs with
  | nil => intro h; exact h
  | cons c cs' ih =>
    intro h
    by_cases hc : isSpaceChar c = true
    · rw [trimL, List.dropWhile_cons, if_pos hc]
      simp only [noMatches] at h
      obtain ⟨_, htail⟩ := (Bool.and_eq_true _ _).mp h
      rw [spaceChar_not_word c hc] at htail
      exact ih htail
    · rw [trimL, List.dropWhile_cons, if_neg hc]
      exact h

theorem tryMatch_extend (w l ss : List Char) (hss : ∀ c ∈ ss, isSpaceChar c = true)
    (h : (tryMatch w l).isSome = true) : (tryMatch w (l ++ ss)).isSome = true := by
  obtain ⟨hp, hb⟩ := (tryMatch_isSome_iff _ _).mp h
  have hwl : w.length ≤ l.length := (List.isPrefixOf_iff_prefix.mp hp).length_le
  refine (tryMatch_isSome_iff _ _).mpr ⟨?_, ?_⟩
  · rw [List.isPrefixOf_iff_prefix] at hp ⊢
    exact hp.trans (List.prefix_append l ss)
  · rw [List.drop_append_of_le_length hwl]
    rcases hd : l.drop w.length with _ | ⟨d, ds⟩
    · rw [List.nil_append]
      rcases ss with _ | ⟨s0, ss'⟩
      · rfl
      · rw [boundaryOk, spaceChar_not_word s0 (hss s0 (List.mem_cons_self _ _))]
        rfl
    · rw [hd] at hb
      rw [List.cons_append]
      rw [boundaryOk] at hb ⊢
      exact hb

theorem noMatches_append_spaces (ws : List RWord) (ss : List Char)
    (hss : ∀ c ∈ ss, isSpaceChar c = true) :
    ∀ xs b, noMatches ws (xs ++ ss) b = true → noMatches ws xs b = true := by
  intro xs
  induction xs with
  | nil => intro b _; rfl
  | cons x xs' ih =>
    intro b h
    simp only [List.cons_append, noMatches] at h
    obtain ⟨hhead, htail⟩ := (Bool.and_eq_true _ _).mp h
    simp only [noMatches]
    refine (Bool.and_eq_true _ _).mpr ⟨?_, ih (isWordChar x) htail⟩
    rcases b with _|_
    · rcases htw : tryWords ws (x :: xs') with _ | r
      · rfl
      · exfalso
        obtain ⟨w, hwmem, hwm⟩ := List.exists_of_findSome?_eq_some htw
        have hS : (tryMatch w.val (x :: xs')).isSome = true := by
          rw [hwm]
          rfl
        have hS2 := tryMatch_extend w.val (x :: xs') ss hss hS
        rw [List.cons_append] at hS2
        have hnone : tryWords ws (x :: (xs' ++ ss)) = none := by
          have hh2 : (tryWords ws (x :: (xs' ++ ss))).isNone = true := by
            simpa using hhead
          exact Option.isNone_iff_eq_none.mp hh2
        rw [(tryWords_none_iff ws _).mp hnone w hwmem] at hS2
        exact Bool.noConfusion hS2
    · rfl

theorem noMatches_trimR (ws : List RWord) (cs : List Char) (b : Bool)
    (h : noMatches ws cs b = true) : noMatches ws (trimR cs) b = true := by
  obtain ⟨ss, hdecomp, hss⟩ := trimR_decomp cs
  refine noMatches_append_spaces ws ss hss (trimR cs) b ?_
  rw [← hdecomp]
  exact h

theorem trimL_eq_self_of_head (c : Char) (cs : List Char) (h : isSpaceChar c = false) :
    trimL (c :: cs) = c :: cs := by
  rw [trimL, List.dropWhile_cons, if_neg (by simp [h])]

theorem trimR_head (c : Char) (cs : List Char) :
    trimR (c :: cs) = [] ∨ ∃ rest, trimR (c :: cs) = c :: rest := by
  obtain ⟨ss, hd, _⟩ := trimR_decomp (c :: cs)
  rcases htr : trimR (c :: cs) with _ | ⟨d, rest⟩
  · exact Or.inl rfl
  · rw [htr, List.cons_append] at hd
    injection hd with h1 _
    subst h1
    exact Or.inr ⟨rest, rfl⟩

theorem trimR_trimR (l : List Char) : trimR (trimR l) = trimR l := by
  simp only [trimR, List.reverse_reverse, dropWhile_idem]

theorem trimBoth_idem (l : List Char) : trimBoth (trimBoth l) = trimBoth l := by
  show trimR (trimL (trimR (trimL l))) = trimR (trimL l)
  have h1 : trimL (trimR (trimL l)) = trimR (trimL l) := by
    rcases htl : trimL l with _ | ⟨c, rest⟩
    · rfl
    · rcases trimR_head c rest with h | ⟨rest', h⟩
      · rw [h]
        rfl
      · rw [h]
        have hc : isSpaceChar c = false := dropWhile_head_false isSpaceChar l c rest htl
        exact trimL_eq_self_of_head c rest' hc
  rw [h1, trimR_trimR]

theorem trimL_mem (l : List Char) (c : Char) (h : c ∈ trimL l) : c ∈ l :=
  List.dropWhile_subset _ h

theorem trimR_mem (l : List Char) (c : Char) (h : c ∈ trimR l) : c ∈ l := by
  rw [trimR, List.mem_reverse] at h
  have h2 := List.dropWhile_subset _ h
  rwa [List.mem_reverse] at h2

theorem subWF_mem (ws : List RWord) :
    ∀ n cs b c, c ∈ subWF ws n cs b → c ∈ cs ∨ c = Char.ofNat 32 := by
  intro n
  induction n with
  | zero =>
    intro cs b c h
    exact Or.inl h
  | succ n ih =>
    intro cs b c h
    rcases cs with _ | ⟨c0, cs'⟩
    · rw [subWF_nil] at h
      simp at h
    · rcases b with _|_
      · rcases htw : tryWords ws (c0 :: cs') with _ | rest
        · rw [subWF_succ_cons_nomatch _ _ _ _ htw] at h
          rcases List.mem_cons.mp h with heq | hmem
          · exact Or.inl (heq ▸ List.mem_cons_self _ _)
          · rcases ih cs' (isWordChar c0) c hmem with hm | hm
            · exact Or.inl (List.mem_cons_of_mem _ hm)
            · exact Or.inr hm
        · rw [subWF_succ_cons_match _ _ _ _ _ htw] at h
          rcases List.mem_cons.mp h with heq | hmem
          · exact Or.inr heq
          · rcases ih rest true c hmem with hm | hm
            · obtain ⟨⟨k, hk⟩, _, _⟩ := tryWords_some_facts ws _ _ htw
              rw [hk] at hm
              exact Or.inl ((List.drop_sublist k (c0 :: cs')).subset hm)
            · exact Or.inr hm
      · rw [subWF_succ_cons_true] at h
        rcases List.mem_cons.mp h with heq | hmem
        · exact Or.inl (heq ▸ List.mem_cons_self _ _)
        · rcases ih cs' (isWordChar c0) c hmem with hm | hm
          · exact Or.inl (List.mem_cons_of_mem _ hm)
          · exact Or.inr hm

theorem map_eq_self_of_fixed (f : Char → Char) :
    ∀ l : List Char, (∀ c ∈ l, f c = c) → l.map f = l := by
  intro l
  induction l with
  | nil => intro _; rfl
  | cons c cs ih =>
    intro h
    rw [List.map_cons, h c (List.mem_cons_self _ _),
      ih (fun x hx => h x (List.mem_cons_of_mem _ hx))]

theorem goodSpaces_append_left :
    ∀ (xs ys : List Char), goodSpaces (xs ++ ys) = true → goodSpaces xs = true := by
  intro xs ys
  induction xs with
  | nil => intro _; rfl
  | cons x xs' ih =>
    intro h
    rcases xs' with _ | ⟨x2, rest⟩
    · rfl
    · simp only [List.cons_append, goodSpaces] at h ⊢
      obtain ⟨hpair, htail⟩ := (Bool.and_eq_true _ _).mp h
      exact (Bool.and_eq_true _ _).mpr ⟨hpair, ih htail⟩

theorem goodSpaces_dropWhile (p : Char → Bool) :
    ∀ l, goodSpaces l = true → goodSpaces (l.dropWhile p) = true := by
  intro l
  induction l with
  | nil => intro _; rfl
  | cons c cs ih =>
    intro h
    rw [List.dropWhile_cons]
    by_cases hc : p c = true
    · rw [if_pos hc]
      exact ih (goodSpaces_tail c cs h)
    · rw [if_neg hc]
      exact h

theorem goodSpaces_trimR (l : List Char) (h : goodSpaces l = true) :
    goodSpaces (trimR l) = true := by
  obtain ⟨ss, hd, _⟩ := trimR_decomp l
  exact goodSpaces_append_left (trimR l) ss (hd ▸ h)

/-- A list that is already trimmed, collapsed, lowercase and match-free for
both passes is a fixed point of `normalizeList`. -/
theorem normalizeList_fix (l : List Char)
    (hA : noMatches articleWords l false = true)
    (hF : noMatches fillerWords l false = true)
    (hLF : ∀ c ∈ l, lowerChar c = c)
    (hTB : trimBoth l = l)
    (hGS : goodSpaces l = true)
    (hSN : ∀ c ∈ l, isSpaceChar c = true → c = Char.ofNat 32) :
    normalizeList l = l := by
  show trimBoth (squeezeGo
    (subAll fillerWords (subAll articleWords ((trimBoth l).map lowerChar))) false) = l
  rw [hTB, map_eq_self_of_fixed lowerChar l hLF]
  simp only [subAll]
  rw [subWF_of_noMatches articleWords l.length l false hA]
  rw [subWF_of_noMatches fillerWords l.length l false hF]
  rw [squeezeGo_eq_self_of_props l hGS hSN]
  exact hTB

/-- `normalizeList` is idempotent. -/
theorem normalizeList_idem (l : List Char) :
    normalizeList (normalizeList l) = normalizeList l := by
  have hout : normalizeList l = trimBoth (squeezeGo
      (subAll fillerWords (subAll articleWords ((trimBoth l).map lowerChar))) false) := rfl
  rw [hout]
  set t0 : List Char := (trimBoth l).map lowerChar with ht0
  set s1 : List Char := subAll articleWords t0 with hs1
  set s2 : List Char := subAll fillerWords s1 with hs2
  set q : List Char := squeezeGo s2 false with hq
  have a1 : noMatches articleWords s1 false = true :=
    noMatches_subWF articleWords articleWords_wordChar t0.length t0 false (Nat.le_refl _)
  have a2 : noMatches articleWords s2 false = true :=
    noMatches_preserved_subWF articleWords fillerWords articleWords_wordChar
      s1.length s1 false (Nat.le_refl _) a1
  have a3 : noMatches articleWords q false = true :=
    (noMatches_squeezeGo articleWords articleWords_wordChar s2).1 false a2
  have a4 : noMatches articleWords (trimBoth q) false = true :=
    noMatches_trimR articleWords (trimL q) false (noMatches_trimL articleWords q a3)
  have f1 : noMatches fillerWords s2 false = true :=
    noMatches_subWF fillerWords fillerWords_wordChar s1.length s1 false (Nat.le_refl _)
  have f2 : noMatches fillerWords q false = true :=
    (noMatches_squeezeGo fillerWords fillerWords_wordChar s2).1 false f1
  have f3 : noMatches fillerWords (trimBoth q) false = true :=
    noMatches_trimR fillerWords (trimL q) false (noMatches_trimL fillerWords q f2)
  have hmemq : ∀ c ∈ q, c ∈ s2 ∨ c = Char.ofNat 32 := fun c hc => squeezeGo_mem s2 false c hc
  have hmems2 : ∀ c ∈ s2, c ∈ s1 ∨ c = Char.ofNat 32 := fun c hc =>
    subWF_mem fillerWords s1.length s1 false c hc
  have hmems1 : ∀ c ∈ s1, c ∈ t0 ∨ c = Char.ofNat 32 := fun c hc =>
    subWF_mem articleWords t0.length t0 false c hc
  have hlft0 : ∀ c ∈ t0, lowerChar c = c := by
    intro c hc
    rw [ht0] at hc
    obtain ⟨d, _, hd⟩ := List.mem_map.mp hc
    rw [← hd]
    exact lowerChar_idem d
  have hlfq : ∀ c ∈ q, lowerChar c = c := by
    intro c hc
    rcases hmemq c hc with h2 | h2
    · rcases hmems2 c h2 with h3 | h3
      · rcases hmems1 c h3 with h4 | h4
        · exact hlft0 c h4
        · rw [h4]
          exact space_lower_fixed
      · rw [h3]
        exact space_lower_fixed
    · rw [h2]
      exact space_lower_fixed
  have hlf : ∀ c ∈ trimBoth q, lowerChar c = c := fun c hc =>
    hlfq c (trimL_mem q c (trimR_mem (trimL q) c hc))
  have hgs : goodSpaces (trimBoth q) = true :=
    goodSpaces_trimR _ (goodSpaces_dropWhile isSpaceChar q (goodSpaces_squeezeGo s2 false))
  have hsn : ∀ c ∈ trimBoth q, isSpaceChar c = true → c = Char.ofNat 32 := by
    intro c hc hsp
    exact squeezeGo_spaces_are_space s2 false c
      (trimL_mem q c (trimR_mem (trimL q) c hc)) hsp
  exact normalizeList_fix (trimBoth q) a4 f3 hlf (trimBoth_idem q) hgs hsn

/-! Whole-word removal: a token of word characters that is not itself one
of the six removable words is untouched by `normalize_phrase` (apart from
lowercasing), and a removable word is stripped when it stands alone. -/

theorem prefix_drop_nil_eq (w l : List Char) (hp : w.isPrefixOf l = true)
    (hd : l.drop w.length = []) : w = l := by
  obtain ⟨t, ht⟩ := List.isPrefixOf_iff_prefix.mp hp
  rw [← ht, List.drop_left] at hd
  rw [← ht, hd, List.append_nil]

theorem tryWords_none_all_word (ws : List RWord) (l : List Char)
    (hl : ∀ ch ∈ l, isWordChar ch = true) (hne : ∀ w ∈ ws, w.val ≠ l) :
    tryWords ws l = none := by
  rw [tryWords_none_iff]
  intro w hw
  rcases htm : tryMatch w.val l with _ | r
  · rfl
  · exfalso
    have hS : (tryMatch w.val l).isSome = true := by
      rw [htm]
      rfl
    obtain ⟨hp, hb⟩ := (tryMatch_isSome_iff _ _).mp hS
    rcases hd : l.drop w.val.length with _ | ⟨d, ds⟩
    · exact hne w hw (prefix_drop_nil_eq _ _ hp hd)
    · rw [hd, boundaryOk] at hb
      have hmem : d ∈ l := by
        refine (List.drop_sublist w.val.length l).subset ?_
        rw [hd]
        exact List.mem_cons_self _ _
      rw [hl d hmem] at hb
      exact Bool.noConfusion hb

theorem subWF_true_all_word (ws : List RWord) :
    ∀ n l, (∀ ch ∈ l, isWordChar ch = true) → subWF ws n l true = l := by
  intro n
  induction n with
  | zero => intro l _; rfl
  | succ n ih =>
    intro l hl
    rcases l with _ | ⟨c, cs⟩
    · rw [subWF_nil]
    · rw [subWF_succ_cons_true, hl c (List.mem_cons_self _ _),
        ih cs (fun x hx => hl x (List.mem_cons_of_mem _ hx))]

theorem subWF_false_all_word (ws : List RWord) (l : List Char)
    (hl : ∀ ch ∈ l, isWordChar ch = true) (hne : ∀ w ∈ ws, w.val ≠ l) (n : Nat) :
    subWF ws n l false = l := by
  rcases l with _ | ⟨c, cs⟩
  · rw [subWF_nil]
  · rcases n with _ | n'
    · rfl
    · rw [subWF_succ_cons_nomatch _ _ _ _ (tryWords_none_all_word ws _ hl hne)]
      rw [hl c (List.mem_cons_self _ _),
        subWF_true_all_word ws n' cs (fun x hx => hl x (List.mem_cons_of_mem _ hx))]

theorem dropWhile_eq_self_all (p : Char → Bool) (m : List Char)
    (h : ∀ c ∈ m, p c = false) : m.dropWhile p = m := by
  rcases m with _ | ⟨c, cs⟩
  · rfl
  · rw [List.dropWhile_cons, if_neg (by simp [h c (List.mem_cons_self _ _)])]

theorem trimR_eq_self_all (l : List Char) (h : ∀ c ∈ l, isSpaceChar c = false) :
    trimR l = l := by
  rw [trimR, dropWhile_eq_self_all isSpaceChar l.reverse
    (fun c hc => h c (List.mem_reverse.mp hc)), List.reverse_reverse]

theorem trimBoth_eq_self_all (l : List Char) (h : ∀ c ∈ l, isSpaceChar c = false) :
    trimBoth l = l := by
  show trimR (trimL l) = l
  rw [trimL, dropWhile_eq_self_all isSpaceChar l h, trimR_eq_self_all l h]

theorem trimR_append_right (l1 l2 : List Char) (h2 : l2 ≠ [])
    (hns : ∀ c ∈ l2, isSpaceChar c = false) : trimR (l1 ++ l2) = l1 ++ l2 := by
  rw [trimR, List.reverse_append]
  rcases hrev : l2.reverse with _ | ⟨d, ds⟩
  · exact absurd (List.reverse_eq_nil_iff.mp hrev) h2
  · have hd : isSpaceChar d = false := hns d (by
      rw [← List.mem_reverse, hrev]
      exact List.mem_cons_self _ _)
    rw [List.cons_append, List.dropWhile_cons, if_neg (by simp [hd])]
    rw [← List.cons_append, ← hrev, ← List.reverse_append, List.reverse_reverse]

theorem word_val_mem_removable (w : RWord)
    (h : w ∈ articleWords ∨ w ∈ fillerWords) : String.mk w.val ∈ removableWords := by
  rcases h with h | h
  · simp only [articleWords, List.mem_cons, List.not_mem_nil, or_false] at h
    rcases h with h | h | h <;> rw [h] <;> decide
  · simp only [fillerWords, List.mem_cons, List.not_mem_nil, or_false] at h
    rcases h with h | h | h <;> rw [h] <;> decide

/-- A pure word-character string that is not a removable word only gets
lowercased. -/
theorem normalizeList_all_word (l : List Char)
    (hl : ∀ ch ∈ l, isWordChar ch = true)
    (hne : ∀ w ∈ articleWords, w.val ≠ l.map lowerChar)
    (hne2 : ∀ w ∈ fillerWords, w.val ≠ l.map lowerChar) :
    normalizeList l = l.map lowerChar := by
  have hns : ∀ c ∈ l, isSpaceChar c = false := fun c hc => word_not_space c (hl c hc)
  have hlxw : ∀ ch ∈ l.map lowerChar, isWordChar ch = true := by
    intro ch hch
    obtain ⟨d, hd, hdl⟩ := List.mem_map.mp hch
    rw [← hdl]
    exact lowerChar_word d (hl d hd)
  have hlxns : ∀ c ∈ l.map lowerChar, isSpaceChar c = false := fun c hc =>
    word_not_space c (hlxw c hc)
  show trimBoth (squeezeGo
    (subAll fillerWords (subAll articleWords ((trimBoth l).map lowerChar))) false)
      = l.map lowerChar
  rw [trimBoth_eq_self_all l hns]
  simp only [subAll]
  rw [subWF_false_all_word articleWords (l.map lowerChar) hlxw hne _]
  rw [subWF_false_all_word fillerWords (l.map lowerChar) hlxw hne2 _]
  rw [squeezeGo_eq_self_of_no_space (l.map lowerChar) hlxns false]
  rw [trimBoth_eq_self_all (l.map lowerChar) hlxns]

/-- "the " followed by a non-removable word-character token: the article is
stripped as a standalone word and the token survives (lowercased). -/
theorem normalizeList_the_prefix (l : List Char) (hl0 : l ≠ [])
    (hl : ∀ ch ∈ l, isWordChar ch = true)
    (hne : ∀ w ∈ articleWords, w.val ≠ l.map lowerChar)
    (hne2 : ∀ w ∈ fillerWords, w.val ≠ l.map lowerChar) :
    normalizeList (Char.ofNat 116 :: Char.ofNat 104 :: Char.ofNat 101 ::
      Char.ofNat 32 :: l) = l.map lowerChar := by
  have hns : ∀ c ∈ l, isSpaceChar c = false := fun c hc => word_not_space c (hl c hc)
  have hlxw : ∀ ch ∈ l.map lowerChar, isWordChar ch = true := by
    intro ch hch
    obtain ⟨d, hd, hdl⟩ := List.mem_map.mp hch
    rw [← hdl]
    exact lowerChar_word d (hl d hd)
  have hlxns : ∀ c ∈ l.map lowerChar, isSpaceChar c = false := fun c hc =>
    word_not_space c (hlxw c hc)
  have htbL : trimBoth (Char.ofNat 116 :: Char.ofNat 104 :: Char.ofNat 101 ::
      Char.ofNat 32 :: l) = Char.ofNat 116 :: Char.ofNat 104 :: Char.ofNat 101 ::
      Char.ofNat 32 :: l := by
    show trimR (trimL _) = _
    rw [trimL_eq_self_of_head _ _ (by decide)]
    have happ : (Char.ofNat 116 :: Char.ofNat 104 :: Char.ofNat 101 ::
        Char.ofNat 32 :: l) = [Char.ofNat 116, Char.ofNat 104, Char.ofNat 101,
        Char.ofNat 32] ++ l := rfl
    rw [happ]
    exact trimR_append_right _ l hl0 hns
  have hmap : (Char.ofNat 116 :: Char.ofNat 104 :: Char.ofNat 101 ::
      Char.ofNat 32 :: l).map lowerChar = Char.ofNat 116 :: Char.ofNat 104 ::
      Char.ofNat 101 :: Char.ofNat 32 :: l.map lowerChar := by
    simp only [List.map_cons]
    rw [(by decide : lowerChar (Char.ofNat 116) = Char.ofNat 116),
      (by decide : lowerChar (Char.ofNat 104) = Char.ofNat 104),
      (by decide : lowerChar (Char.ofNat 101) = Char.ofNat 101),
      (by decide : lowerChar (Char.ofNat 32) = Char.ofNat 32)]
  have h1 : tryWords articleWords (Char.ofNat 116 :: Char.ofNat 104 :: Char.ofNat 101 ::
      Char.ofNat 32 :: l.map lowerChar) = some (Char.ofNat 32 :: l.map lowerChar) := rfl
  have hsub1 : subAll articleWords (Char.ofNat 116 :: Char.ofNat 104 :: Char.ofNat 101 ::
      Char.ofNat 32 :: l.map lowerChar) = Char.ofNat 32 :: Char.ofNat 32 ::
      l.map lowerChar := by
    rw [subAll]
    simp only [List.length_cons]
    rw [subWF_succ_cons_match _ _ _ _ _ h1]
    rw [subWF_succ_cons_true]
    rw [(by decide : isWordChar (Char.ofNat 32) = false)]
    rw [subWF_false_all_word articleWords (l.map lowerChar) hlxw hne _]
  have hsub2 : subAll fillerWords (Char.ofNat 32 :: Char.ofNat 32 :: l.map lowerChar) =
      Char.ofNat 32 :: Char.ofNat 32 :: l.map lowerChar := by
    rw [subAll]
    simp only [List.length_cons]
    rw [subWF_succ_cons_nomatch _ _ _ _
      (tryWords_none_of_head fillerWords fillerWords_wordChar _ _ (by decide))]
    rw [(by decide : isWordChar (Char.ofNat 32) = false)]
    rw [subWF_succ_cons_nomatch _ _ _ _
      (tryWords_none_of_head fillerWords fillerWords_wordChar _ _ (by decide))]
    rw [(by decide : isWordChar (Char.ofNat 32) = false)]
    rw [subWF_false_all_word fillerWords (l.map lowerChar) hlxw hne2 _]
  have hsq : squeezeGo (Char.ofNat 32 :: Char.ofNat 32 :: l.map lowerChar) false =
      Char.ofNat 32 :: l.map lowerChar := by
    rw [squeezeGo_cons_space_new _ _ (by decide), squeezeGo_cons_space_run _ _ (by decide)]
    rw [squeezeGo_eq_self_of_no_space (l.map lowerChar) hlxns true]
  have htrim : trimBoth (Char.ofNat 32 :: l.map lowerChar) = l.map lowerChar := by
    show trimR (trimL _) = _
    rw [trimL, List.dropWhile_cons, if_pos (by decide)]
    rw [dropWhile_eq_self_all isSpaceChar (l.map lowerChar) hlxns]
    exact trimR_eq_self_all (l.map lowerChar) hlxns
  show trimBoth (squeezeGo (subAll fillerWords (subAll articleWords
    ((trimBoth (Char.ofNat 116 :: Char.ofNat 104 :: Char.ofNat 101 ::
      Char.ofNat 32 :: l)).map lowerChar))) false) = l.map lowerChar
  rw [htbL, hmap, hsub1, hsub2, hsq, htrim]

/-- Claim C4: `normalize_phrase` is total (it is a computable function
defined on every string, by construction), idempotent, and removes the
filler words only as whole standalone words: a token made of word
characters that is not itself one of the six words is only lowercased
(so a word like "another" is never stripped from the inside), while a
standalone "the " prefix before such a token is stripped. -/
theorem c4_normalize_idempotent_whole_word :
    (∀ x : String, normalize_phrase (normalize_phrase x) = normalize_phrase x) ∧
    (∀ x : String, (∀ c ∈ x.toList, isWordChar c = true) →
      lowerStr x ∉ removableWords → normalize_phrase x = lowerStr x) ∧
    ∀ x : String, x.toList ≠ [] → (∀ c ∈ x.toList, isWordChar c = true) →
      lowerStr x ∉ removableWords → normalize_phrase ("the " ++ x) = lowerStr x := by
  have hbridge : ∀ x : String, lowerStr x ∉ removableWords →
      (∀ w ∈ articleWords, w.val ≠ x.toList.map lowerChar) ∧
      ∀ w ∈ fillerWords, w.val ≠ x.toList.map lowerChar := by
    intro x h
    constructor <;> intro w hw heq <;> refine absurd ?_ h
    · have hx : lowerStr x = String.mk w.val := by
        rw [lowerStr, ← heq]
      rw [hx]
      exact word_val_mem_removable w (Or.inl hw)
    · have hx : lowerStr x = String.mk w.val := by
        rw [lowerStr, ← heq]
      rw [hx]
      exact word_val_mem_removable w (Or.inr hw)
  refine ⟨?_, ?_, ?_⟩
  · intro x
    show String.mk (normalizeList (normalizeList x.toList)) =
      String.mk (normalizeList x.toList)
    rw [normalizeList_idem]
  · intro x hw hnr
    obtain ⟨hneA, hneF⟩ := hbridge x hnr
    show String.mk (normalizeList x.toList) = String.mk (x.toList.map lowerChar)
    rw [normalizeList_all_word x.toList hw hneA hneF]
  · intro x hx0 hw hnr
    obtain ⟨hneA, hneF⟩ := hbridge x hnr
    have htl : ("the " ++ x).toList = Char.ofNat 116 :: Char.ofNat 104 ::
        Char.ofNat 101 :: Char.ofNat 32 :: x.toList := by
      show ("the " ++ x).data = _
      rw [String.data_append]
      rfl
    show String.mk (normalizeList (("the " ++ x).toList)) =
      String.mk (x.toList.map lowerChar)
    rw [htl, normalizeList_the_prefix x.toList hx0 hw hneA hneF]

/-- Witness for C4: idempotence at a concrete messy phrase, and the
whole-word guarantee at "another" (which contains both "an" and "the" as
substrings but is not stripped). -/
theorem c4_witness :
    normalize_phrase (normalize_phrase "run The  Backup script") =
      normalize_phrase "run The  Backup script" ∧
    normalize_phrase "another" = "another" ∧
    normalize_phrase ("the " ++ "another") = "another" := by
  refine ⟨c4_normalize_idempotent_whole_word.1 _, ?_, ?_⟩
  · have h := c4_normalize_idempotent_whole_word.2.1 "another" (by decide) (by decide)
    rw [h]
    decide
  · have h := c4_normalize_idempotent_whole_word.2.2 "another" (by decide) (by decide)
      (by decide)
    rw [h]
    decide

end VoiceRunner
